import Mathlib

/-!
Verification of the RFM segmentation pipeline of
`OnlineGlobalRetail.py` (with `OnlineRetail.py` its near-identical twin).

The script is a straight-line pandas pipeline.  We embed the two components
with algorithmic content:

* the Cleaner (Step 3/4): `drop_duplicates`, `dropna` on CustomerID and
  Description, the positivity filter on UnitPrice/Quantity, and the derived
  `TotalPrice = Quantity * UnitPrice` column;
* the RFM engine (Step 10): per-customer Recency/Frequency/Monetary
  aggregation, `pd.qcut(_, 10)` decile scoring (with the recency labels
  reversed and the frequency column pre-ranked by `rank(method='first')`),
  the concatenated `RFM_Score` string and the `best_customers` filter.

Modelling conventions:

* timestamps are integers (seconds); `pandas.Timedelta.days` is floor
  division by 86400, embedded as `Int.fdiv`;
* prices are exact rationals (the script uses float64; the claims under
  scrutiny are order/structure claims, which we settle in exact arithmetic);
* `pd.qcut(x, 10)` computes `numpy` linear-interpolation quantiles at
  0, 1/10, ..., 1 of the sorted data and raises
  `ValueError: Bin edges must be unique` when two edges coincide
  (`duplicates='raise'` is the default); on an empty column it also raises.
  Fallibility is embedded as `Except String`;
* bin membership for strictly increasing edges `e_0 < ... < e_10` is:
  value `v` lands in bin `k` iff `e_k < v ≤ e_(k+1)`, except that the lowest
  bin also contains `e_0` (pandas' `include_lowest` adjustment).  For such
  edges this is exactly "the number of interior edges `e_1 ... e_9` below
  `v`", which is how `binIndex` is written;
* `groupby('CustomerID')` sorts the group keys ascending, so the rfm table
  is ordered by customer identifier.
-/

/-- A raw input row, with the columns the script touches.  `CustomerID` and
`Description` may be missing (pandas NaN), hence `Option`. -/
structure RawRecord where
  invoiceNo : String
  customerID : Option ℕ
  description : Option String
  quantity : ℤ
  unitPrice : ℚ
  invoiceDate : ℤ
  country : String
  deriving DecidableEq, Repr

/-- A cleaned row: identifier and description present, `totalPrice` the
derived `TotalPrice` column. -/
structure CleanRecord where
  invoiceNo : String
  customerID : ℕ
  description : String
  quantity : ℤ
  unitPrice : ℚ
  totalPrice : ℚ
  invoiceDate : ℤ
  country : String
  deriving DecidableEq, Repr

/-- `df.drop_duplicates()`: keep the first occurrence of each row. -/
def dropDupAux (seen : List RawRecord) : List RawRecord → List RawRecord
  | [] => []
  | r :: rs => if r ∈ seen then dropDupAux seen rs else r :: dropDupAux (r :: seen) rs

/-- `df.drop_duplicates()` on the raw table. -/
def dropDuplicates (rs : List RawRecord) : List RawRecord := dropDupAux [] rs

/-- One raw row through `dropna(subset=['CustomerID','Description'])`,
the `(UnitPrice > 0) & (Quantity > 0)` filter and the `TotalPrice`
computation: `none` when the row is dropped. -/
def toClean (r : RawRecord) : Option CleanRecord :=
  match r.customerID, r.description with
  | some c, some d =>
      if 0 < r.unitPrice ∧ 0 < r.quantity then
        some { invoiceNo := r.invoiceNo, customerID := c, description := d,
               quantity := r.quantity, unitPrice := r.unitPrice,
               totalPrice := r.quantity * r.unitPrice,
               invoiceDate := r.invoiceDate, country := r.country }
      else none
  | _, _ => none

/-- The Cleaner (script Step 3 and the `TotalPrice` line of Step 4). -/
def cleaner (rs : List RawRecord) : List CleanRecord :=
  (dropDuplicates rs).filterMap toClean

/-! ## RFM engine (script Step 10) -/

/-- Seconds per day; `Timedelta(days=1)` and `.dt.days`. -/
def secondsPerDay : ℤ := 86400

/-- Maximum of the `InvoiceDate` column of a table (meaningful only when the
table is nonempty, which is the only way the script uses it). -/
def maxDate (rs : List CleanRecord) : ℤ :=
  match rs.map (fun r => r.invoiceDate) with
  | [] => 0
  | x :: xs => xs.foldl max x

/-- `latest_date = df['InvoiceDate'].max() + pd.Timedelta(days=1)`. -/
def latestDate (rs : List CleanRecord) : ℤ := maxDate rs + secondsPerDay

/-- The rows of a given customer (`groupby('CustomerID')` fiber). -/
def recordsOf (rs : List CleanRecord) (c : ℕ) : List CleanRecord :=
  rs.filter (fun r => r.customerID == c)

/-- The distinct customers in `groupby` order: ascending identifiers
(the sorted de-duplicated `CustomerID` column). -/
def customersOf (rs : List CleanRecord) : List ℕ :=
  List.insertionSort (· ≤ ·) (rs.map (fun r => r.customerID)).dedup

/-- Whole days from `t1` to `t2` (`(t2 - t1).days` on a Timedelta: floor). -/
def daysBetween (t1 t2 : ℤ) : ℤ := Int.fdiv (t2 - t1) secondsPerDay

/-- `Recency = (latest_date - last purchase).dt.days` for one customer. -/
def recency (rs : List CleanRecord) (c : ℕ) : ℤ :=
  daysBetween (maxDate (recordsOf rs c)) (latestDate rs)

/-- `Frequency = df.groupby('CustomerID')['InvoiceNo'].nunique()`. -/
def frequency (rs : List CleanRecord) (c : ℕ) : ℕ :=
  (((recordsOf rs c).map (fun r => r.invoiceNo)).toFinset).card

/-- `Monetary = df.groupby('CustomerID')['TotalPrice'].sum()`. -/
def monetary (rs : List CleanRecord) (c : ℕ) : ℚ :=
  ((recordsOf rs c).map (fun r => r.totalPrice)).sum

/-! ### `pd.qcut` -/

/-- Ascending sort of a rational column (`numpy` quantiles sort the data). -/
def sortQ (xs : List ℚ) : List ℚ := List.insertionSort (· ≤ ·) xs

/-- The `j/10` empirical quantile of the sorted column `s`, with numpy's
`linear` interpolation: fractional index `h = (n-1)*j/10`, value
`s[⌊h⌋] + (h - ⌊h⌋) * (s[⌊h⌋+1] - s[⌊h⌋])`.  (`(n-1)*j/10` in ℕ is that
floor.)  The out-of-range default can only be consulted with a zero
coefficient. -/
def quantileAt (s : List ℚ) (j : ℕ) : ℚ :=
  let n := s.length
  let b : ℕ := (n - 1) * j / 10
  let lo := s.getD b 0
  lo + (((n : ℚ) - 1) * j / 10 - (b : ℚ)) * (s.getD (b + 1) lo - lo)

/-- The 11 decile bin edges `pd.qcut(xs, 10)` computes. -/
def quantileEdges (xs : List ℚ) : List ℚ :=
  (List.range 11).map (fun j => quantileAt (sortQ xs) j)

/-- The bin (0-based) a value of the column falls into: for the strictly
increasing edges qcut insists on, bin `k` is `(e_k, e_(k+1)]` with the
minimum folded into bin 0, i.e. the number of interior edges below `v`. -/
def binIndex (xs : List ℚ) (v : ℚ) : ℕ :=
  ((List.range 9).map (fun t => quantileAt (sortQ xs) (t + 1))).countP
    (fun e => decide (e < v))

/-- `pd.qcut(xs, 10, labels=labels).astype(int)` on a column: fails on an
empty column or on duplicate bin edges (`duplicates='raise'` default). -/
def qcut (xs : List ℚ) (labels : List ℕ) : Except String (List ℕ) :=
  if xs.isEmpty then .error "qcut: empty input"
  else if (quantileEdges xs).Nodup then
    .ok (xs.map (fun v => labels.getD (binIndex xs v) 0))
  else .error "Bin edges must be unique"

/-- `Series.rank(method='first')` (ascending): rank by value, ties broken by
position; returned as the float column pandas produces. -/
def rankFirst (xs : List ℚ) : List ℚ :=
  (List.range xs.length).map (fun i =>
    (1 : ℚ) + (xs.countP (fun y => decide (y < xs.getD i 0)) : ℕ)
      + ((xs.take i).countP (fun y => decide (y = xs.getD i 0)) : ℕ))

/-- The rank `rank(method='first')` assigns to position `i`, as a natural
number: one more than the number of strictly smaller values plus the number
of equal values at earlier positions. -/
def rankAt (xs : List ℚ) (i : ℕ) : ℕ :=
  1 + xs.countP (fun y => decide (y < xs.getD i 0))
    + (xs.take i).countP (fun y => decide (y = xs.getD i 0))

/-- Labels for `R_Score`: `range(10, 0, -1)`. -/
def rLabels : List ℕ := [10, 9, 8, 7, 6, 5, 4, 3, 2, 1]

/-- Labels for `F_Score` and `M_Score`: `range(1, 11)`. -/
def fmLabels : List ℕ := [1, 2, 3, 4, 5, 6, 7, 8, 9, 10]

/-- `RFM_Score = str(R) + str(F) + str(M)`. -/
def rfmCode (r f m : ℕ) : String := toString r ++ toString f ++ toString m

/-- One row of the final `rfm` dataframe. -/
structure CustomerScore where
  customerID : ℕ
  recency : ℤ
  frequency : ℕ
  monetary : ℚ
  rScore : ℕ
  fScore : ℕ
  mScore : ℕ
  rfmScore : String
  deriving DecidableEq, Repr

/-- The recency column of the rfm table, in customer order. -/
def recencyCol (rs : List CleanRecord) : List ℚ :=
  (customersOf rs).map (fun c => ((recency rs c : ℤ) : ℚ))

/-- The frequency column of the rfm table, in customer order. -/
def frequencyCol (rs : List CleanRecord) : List ℚ :=
  (customersOf rs).map (fun c => (frequency rs c : ℚ))

/-- The monetary column of the rfm table, in customer order. -/
def monetaryCol (rs : List CleanRecord) : List ℚ :=
  (customersOf rs).map (fun c => monetary rs c)

/-- The RFM engine: aggregation, the three `pd.qcut` scorings (`Recency`
with reversed labels, `Frequency` through `rank(method='first')`,
`Monetary` ascending) and the concatenated `RFM_Score`.  The first qcut
failure aborts the run, as the script's first uncaught exception would. -/
def rfmEngine (rs : List CleanRecord) : Except String (List CustomerScore) := do
  let custs := customersOf rs
  let rSc ← qcut (recencyCol rs) rLabels
  let fSc ← qcut (rankFirst (frequencyCol rs)) fmLabels
  let mSc ← qcut (monetaryCol rs) fmLabels
  pure ((List.range custs.length).map (fun i =>
    { customerID := custs.getD i 0
      recency := recency rs (custs.getD i 0)
      frequency := frequency rs (custs.getD i 0)
      monetary := monetary rs (custs.getD i 0)
      rScore := rSc.getD i 0
      fScore := fSc.getD i 0
      mScore := mSc.getD i 0
      rfmScore := rfmCode (rSc.getD i 0) (fSc.getD i 0) (mSc.getD i 0) }))

/-- The rows of a completed run (empty list when the engine failed). -/
def engineRows (rs : List CleanRecord) : List CustomerScore :=
  ((rfmEngine rs).toOption).getD []

/-- `best_customers = rfm[rfm['RFM_Score'] == '101010']`. -/
def bestCustomers (rs : List CleanRecord) : List CustomerScore :=
  (engineRows rs).filter (fun row => row.rfmScore == "101010")

/-- The recency scores column a successful run computes. -/
def rScoresOf (rs : List CleanRecord) : List ℕ :=
  (recencyCol rs).map (fun v => rLabels.getD (binIndex (recencyCol rs) v) 0)

/-- The frequency scores column a successful run computes. -/
def fScoresOf (rs : List CleanRecord) : List ℕ :=
  (rankFirst (frequencyCol rs)).map
    (fun v => fmLabels.getD (binIndex (rankFirst (frequencyCol rs)) v) 0)

/-- The monetary scores column a successful run computes. -/
def mScoresOf (rs : List CleanRecord) : List ℕ :=
  (monetaryCol rs).map (fun v => fmLabels.getD (binIndex (monetaryCol rs) v) 0)

/-- The `i`-th row of a successful run. -/
def scoreRow (rs : List CleanRecord) (i : ℕ) : CustomerScore :=
  { customerID := (customersOf rs).getD i 0
    recency := recency rs ((customersOf rs).getD i 0)
    frequency := frequency rs ((customersOf rs).getD i 0)
    monetary := monetary rs ((customersOf rs).getD i 0)
    rScore := (rScoresOf rs).getD i 0
    fScore := (fScoresOf rs).getD i 0
    mScore := (mScoresOf rs).getD i 0
    rfmScore := rfmCode ((rScoresOf rs).getD i 0) ((fScoresOf rs).getD i 0)
      ((mScoresOf rs).getD i 0) }

/-! ## Concrete datasets for witnesses and counterexamples

All of them satisfy the Cleaner invariants that the claims presuppose of a
"cleaned input" (positive quantity and price, `totalPrice` the product, no
duplicates) — except `dataNeg`, which deliberately violates them to probe
the engine's own defenses.  Dates are whole days in seconds. -/

/-- A one-line cleaned record: quantity 1, so `totalPrice = unitPrice`. -/
def mkRec (inv : String) (c : ℕ) (p : ℚ) (d : ℤ) : CleanRecord :=
  { invoiceNo := inv, customerID := c, description := "D", quantity := 1,
    unitPrice := p, totalPrice := p, invoiceDate := d, country := "UK" }

/-- Exactly 9 distinct customers, all metric columns pairwise distinct. -/
def data9 : List CleanRecord :=
  [mkRec "a" 1 1 0, mkRec "b" 2 2 86400, mkRec "c" 3 3 172800,
   mkRec "d" 4 4 259200, mkRec "e" 5 5 345600, mkRec "f" 6 6 432000,
   mkRec "g" 7 7 518400, mkRec "h" 8 8 604800, mkRec "i" 9 9 691200]

/-- A single cleaned record (one customer). -/
def dataSingle : List CleanRecord := [mkRec "a" 7 5 0]

/-- 10 customers; customer 10 has the single most recent purchase (day 9,
shared by no one), the most distinct invoices (2) and the largest spend
(100); every column is tie-free so the engine completes. -/
def data10best : List CleanRecord :=
  [mkRec "a" 1 1 0, mkRec "b" 2 2 86400, mkRec "c" 3 3 172800,
   mkRec "d" 4 4 259200, mkRec "e" 5 5 345600, mkRec "f" 6 6 432000,
   mkRec "g" 7 7 518400, mkRec "h" 8 8 604800, mkRec "i" 9 9 691200,
   mkRec "j1" 10 50 777600, mkRec "j2" 10 50 777600]

/-- 10 customers, one with a negative line total (a Cleaner-contract
violation fed straight to the engine); all three columns tie-free. -/
def dataNeg : List CleanRecord :=
  [mkRec "a" 1 (-5) 0, mkRec "b" 2 2 86400, mkRec "c" 3 3 172800,
   mkRec "d" 4 4 259200, mkRec "e" 5 5 345600, mkRec "f" 6 6 432000,
   mkRec "g" 7 7 518400, mkRec "h" 8 8 604800, mkRec "i" 9 9 691200,
   mkRec "j" 10 10 777600]

/-- 10 customers with monetary column `[1,2,2,3,4,5,6,7,8,9]` (one tie):
the decile edges stay distinct, so the engine completes, but the monetary
bins come out as 1, 2, 0, 1, ..., 1. -/
def dataTieM : List CleanRecord :=
  [mkRec "a" 1 1 0, mkRec "b" 2 2 86400, mkRec "c" 3 2 172800,
   mkRec "d" 4 3 259200, mkRec "e" 5 4 345600, mkRec "f" 6 5 432000,
   mkRec "g" 7 6 518400, mkRec "h" 8 7 604800, mkRec "i" 9 8 691200,
   mkRec "j" 10 9 777600]

/-- 10 customers where customers 9 and 10 are tied at the top frequency
(2 distinct invoices each); recency and monetary are tie-free. -/
def dataTieF : List CleanRecord :=
  [mkRec "a" 1 1 0, mkRec "b" 2 2 86400, mkRec "c" 3 3 172800,
   mkRec "d" 4 4 259200, mkRec "e" 5 5 345600, mkRec "f" 6 6 432000,
   mkRec "g" 7 7 518400, mkRec "h" 8 8 604800,
   mkRec "i1" 9 (19/4) 691200, mkRec "i2" 9 (19/4) 691200,
   mkRec "j1" 10 (21/4) 777600, mkRec "j2" 10 (21/4) 777600]

/-- 10 customers with only 9 distinct recency values
(`[1,2,2,3,4,5,6,7,8,9]` after sorting) on which the engine completes. -/
def dataRec9 : List CleanRecord :=
  [mkRec "a" 1 1 0, mkRec "b" 2 2 86400, mkRec "c" 3 3 172800,
   mkRec "d" 4 4 259200, mkRec "e" 5 5 345600, mkRec "f" 6 6 432000,
   mkRec "g" 7 7 518400, mkRec "h" 8 8 604800, mkRec "i" 9 9 604800,
   mkRec "j" 10 10 691200]

/-- 10 customers who all purchased on the same day: every recency is 1, so
`pd.qcut` on the recency column has 11 identical bin edges and raises. -/
def dataTiedR : List CleanRecord :=
  [mkRec "a" 1 1 0, mkRec "b" 2 2 0, mkRec "c" 3 3 0,
   mkRec "d" 4 4 0, mkRec "e" 5 5 0, mkRec "f" 6 6 0,
   mkRec "g" 7 7 0, mkRec "h" 8 8 0, mkRec "i" 9 9 0,
   mkRec "j" 10 10 0]

/-- The row the engine produces for customer 1 of `data10best`. -/
def rowC1 : CustomerScore :=
  { customerID := 1, recency := 10, frequency := 1, monetary := 1,
    rScore := 1, fScore := 1, mScore := 1, rfmScore := "111" }

/-- The row the engine produces for customer 2 of `data10best`. -/
def rowC2 : CustomerScore :=
  { customerID := 2, recency := 9, frequency := 1, monetary := 2,
    rScore := 2, fScore := 2, mScore := 2, rfmScore := "222" }

/-- The spec's worked example: customer 1 with invoices on 2011-01-01 and
2011-01-10 (epoch seconds), so the reference date is 2011-01-11. -/
def dataC5 : List CleanRecord :=
  [mkRec "inv1" 1 10 1293840000, mkRec "inv2" 1 20 1294617600]

/-- A one-row raw table whose single record survives cleaning. -/
def rawOne : List RawRecord :=
  [{ invoiceNo := "a", customerID := some 1, description := some "D",
     quantity := 1, unitPrice := 3, invoiceDate := 0, country := "UK" }]

/-- A raw table exercising every cleaning rule: an exact duplicate, a missing
customer id, a missing description, a zero price and a negative quantity. -/
def rawSample : List RawRecord :=
  [{ invoiceNo := "a", customerID := some 1, description := some "apple",
     quantity := 2, unitPrice := 3, invoiceDate := 0, country := "UK" },
   { invoiceNo := "a", customerID := some 1, description := some "apple",
     quantity := 2, unitPrice := 3, invoiceDate := 0, country := "UK" },
   { invoiceNo := "b", customerID := none, description := some "pear",
     quantity := 1, unitPrice := 2, invoiceDate := 0, country := "UK" },
   { invoiceNo := "c", customerID := some 2, description := none,
     quantity := 1, unitPrice := 2, invoiceDate := 0, country := "UK" },
   { invoiceNo := "d", customerID := some 3, description := some "plum",
     quantity := 1, unitPrice := 0, invoiceDate := 0, country := "UK" },
   { invoiceNo := "e", customerID := some 4, description := some "fig",
     quantity := -1, unitPrice := 5, invoiceDate := 0, country := "UK" },
   { invoiceNo := "f", customerID := some 5, description := some "date",
     quantity := 3, unitPrice := 4, invoiceDate := 86400, country := "FR" }]

/-- The cleaned form of the first `rawSample` row. -/
def cleanedA : CleanRecord :=
  { invoiceNo := "a", customerID := 1, description := "apple", quantity := 2,
    unitPrice := 3, totalPrice := 6, invoiceDate := 0, country := "UK" }

/-! ## The Cleaner: basic anatomy -/

theorem dropDupAux_subset (rs : List RawRecord) :
    ∀ seen, ∀ s ∈ dropDupAux seen rs, s ∈ rs := by
  induction rs with
  | nil => intro seen s hs; simp [dropDupAux] at hs
  | cons r rs ih =>
    intro seen s hs
    by_cases hr : r ∈ seen
    · simp only [dropDupAux, if_pos hr] at hs
      exact List.mem_cons_of_mem _ (ih seen s hs)
    · simp only [dropDupAux, if_neg hr, List.mem_cons] at hs
      rcases hs with hs | hs
      · exact hs ▸ List.mem_cons_self _ _
      · exact List.mem_cons_of_mem _ (ih _ s hs)

theorem dropDupAux_not_mem_seen (rs : List RawRecord) :
    ∀ seen, ∀ s ∈ dropDupAux seen rs, s ∉ seen := by
  induction rs with
  | nil => intro seen s hs; simp [dropDupAux] at hs
  | cons r rs ih =>
    intro seen s hs
    by_cases hr : r ∈ seen
    · simp only [dropDupAux, if_pos hr] at hs
      exact ih seen s hs
    · simp only [dropDupAux, if_neg hr, List.mem_cons] at hs
      rcases hs with hs | hs
      · exact hs ▸ hr
      · intro hseen
        exact ih _ s hs (List.mem_cons_of_mem _ hseen)

theorem dropDupAux_nodup (rs : List RawRecord) :
    ∀ seen, (dropDupAux seen rs).Nodup := by
  induction rs with
  | nil => intro seen; simp [dropDupAux]
  | cons r rs ih =>
    intro seen
    by_cases hr : r ∈ seen
    · simpa only [dropDupAux, if_pos hr] using ih seen
    · simp only [dropDupAux, if_neg hr, List.nodup_cons]
      refine ⟨fun hmem => ?_, ih _⟩
      exact dropDupAux_not_mem_seen rs _ r hmem (List.mem_cons_self _ _)

theorem dropDuplicates_nodup (rs : List RawRecord) : (dropDuplicates rs).Nodup :=
  dropDupAux_nodup rs []

theorem dropDuplicates_subset (rs : List RawRecord) :
    ∀ s ∈ dropDuplicates rs, s ∈ rs :=
  dropDupAux_subset rs []

/-- Full characterization of a successful `toClean`: which raw record it
came from and the invariants of the result. -/
theorem toClean_eq_some {s : RawRecord} {r : CleanRecord} (h : toClean s = some r) :
    s = { invoiceNo := r.invoiceNo, customerID := some r.customerID,
          description := some r.description, quantity := r.quantity,
          unitPrice := r.unitPrice, invoiceDate := r.invoiceDate,
          country := r.country } ∧
      0 < r.quantity ∧ 0 < r.unitPrice ∧ r.totalPrice = r.quantity * r.unitPrice := by
  obtain ⟨inv, cid, desc, q, p, date, co⟩ := s
  cases cid with
  | none => simp [toClean] at h
  | some c =>
    cases desc with
    | none => simp [toClean] at h
    | some d =>
      by_cases hpq : 0 < p ∧ 0 < q
      · simp only [toClean, if_pos hpq, Option.some.injEq] at h
        subst h
        refine ⟨rfl, hpq.2, hpq.1, rfl⟩
      · simp [toClean, if_neg hpq] at h

theorem toClean_inj {a b : RawRecord} {r : CleanRecord}
    (ha : toClean a = some r) (hb : toClean b = some r) : a = b :=
  (toClean_eq_some ha).1.trans (toClean_eq_some hb).1.symm

theorem mem_cleaner {raw : List RawRecord} {r : CleanRecord} :
    r ∈ cleaner raw ↔ ∃ s ∈ dropDuplicates raw, toClean s = some r := by
  simp [cleaner, List.mem_filterMap]

theorem cleaner_nodup (raw : List RawRecord) : (cleaner raw).Nodup :=
  List.Nodup.filterMap (fun _ _ _ hb hb' => toClean_inj hb hb')
    (dropDuplicates_nodup raw)

theorem cleaner_totalPrice_pos {raw : List RawRecord} {r : CleanRecord}
    (h : r ∈ cleaner raw) : 0 < r.totalPrice := by
  obtain ⟨s, _, hs⟩ := mem_cleaner.1 h
  obtain ⟨_, hq, hp, ht⟩ := toClean_eq_some hs
  have : (0 : ℚ) < (r.quantity : ℚ) := by exact_mod_cast hq
  rw [ht]
  positivity

/-! ## Aggregation: basic anatomy -/

theorem customersOf_nodup (rs : List CleanRecord) : (customersOf rs).Nodup :=
  (List.perm_insertionSort _ _).nodup_iff.2 (List.nodup_dedup _)

theorem customersOf_sorted (rs : List CleanRecord) :
    (customersOf rs).Sorted (· ≤ ·) :=
  List.sorted_insertionSort _ _

theorem mem_customersOf {rs : List CleanRecord} {c : ℕ} :
    c ∈ customersOf rs ↔ c ∈ rs.map (fun r => r.customerID) :=
  ((List.perm_insertionSort _ _).mem_iff).trans (List.mem_dedup)

theorem monetary_cons (r : CleanRecord) (rs : List CleanRecord) (c : ℕ) :
    monetary (r :: rs) c
      = (if r.customerID = c then r.totalPrice else 0) + monetary rs c := by
  simp only [monetary, recordsOf, List.filter_cons]
  by_cases h : r.customerID = c
  · simp [h]
  · simp [h]

theorem sum_map_ite_of_nodup (t : ℚ) (c : ℕ) :
    ∀ cs : List ℕ, cs.Nodup → c ∈ cs →
      (cs.map (fun x => if c = x then t else 0)).sum = t := by
  intro cs
  induction cs with
  | nil => intro _ h; simp at h
  | cons a cs ih =>
    intro hnd hc
    rcases List.mem_cons.1 hc with rfl | hc
    · have h0 : (cs.map (fun x => if c = x then t else 0)).sum = 0 := by
        apply List.sum_eq_zero
        intro x hx
        obtain ⟨y, hy, rfl⟩ := List.mem_map.1 hx
        have hcy : c ≠ y := fun h => (List.nodup_cons.1 hnd).1 (h ▸ hy)
        simp [hcy]
      simp [h0]
    · have hac : c ≠ a := fun h => (List.nodup_cons.1 hnd).1 (h ▸ hc)
      simp only [List.map_cons, List.sum_cons, if_neg hac]
      rw [zero_add]
      exact ih (List.nodup_cons.1 hnd).2 hc

/-! ## `qcut` and engine anatomy -/

theorem qcut_ok_iff {xs : List ℚ} {labels : List ℕ} {ys : List ℕ} :
    qcut xs labels = .ok ys ↔
      xs ≠ [] ∧ (quantileEdges xs).Nodup ∧
        ys = xs.map (fun v => labels.getD (binIndex xs v) 0) := by
  unfold qcut
  split_ifs with h1 h2
  · constructor
    · intro h; simp at h
    · rintro ⟨hne, -, -⟩; exact absurd (List.isEmpty_iff.1 h1) hne
  · constructor
    · intro h
      refine ⟨fun he => ?_, h2, (Except.ok.inj h).symm⟩
      rw [he] at h1; simp at h1
    · rintro ⟨-, -, rfl⟩; rfl
  · constructor
    · intro h; simp at h
    · rintro ⟨-, hnd, -⟩; exact absurd hnd h2

theorem qcut_error_cases {xs : List ℚ} {labels : List ℕ} {e : String}
    (h : qcut xs labels = .error e) :
    e = "qcut: empty input" ∨ e = "Bin edges must be unique" := by
  unfold qcut at h
  split_ifs at h with h1 h2
  · exact Or.inl (Except.error.inj h).symm
  · exact Or.inr (Except.error.inj h).symm

/-- The `do` block of the engine, written with explicit binds. -/
theorem rfmEngine_eq_bind (rs : List CleanRecord) :
    rfmEngine rs =
      (qcut (recencyCol rs) rLabels).bind (fun rSc =>
        (qcut (rankFirst (frequencyCol rs)) fmLabels).bind (fun fSc =>
          (qcut (monetaryCol rs) fmLabels).bind (fun mSc =>
            Except.ok ((List.range (customersOf rs).length).map (fun i =>
              { customerID := (customersOf rs).getD i 0
                recency := recency rs ((customersOf rs).getD i 0)
                frequency := frequency rs ((customersOf rs).getD i 0)
                monetary := monetary rs ((customersOf rs).getD i 0)
                rScore := rSc.getD i 0
                fScore := fSc.getD i 0
                mScore := mSc.getD i 0
                rfmScore := rfmCode (rSc.getD i 0) (fSc.getD i 0)
                  (mSc.getD i 0) }))))) := rfl

/-- Everything a successful engine run pins down. -/
theorem rfmEngine_ok_anatomy {rs : List CleanRecord} {rows : List CustomerScore}
    (h : rfmEngine rs = .ok rows) :
    recencyCol rs ≠ [] ∧
      (quantileEdges (recencyCol rs)).Nodup ∧
      (quantileEdges (rankFirst (frequencyCol rs))).Nodup ∧
      (quantileEdges (monetaryCol rs)).Nodup ∧
      rows = (List.range (customersOf rs).length).map (scoreRow rs) := by
  rw [rfmEngine_eq_bind] at h
  cases h1 : qcut (recencyCol rs) rLabels with
  | error e => rw [h1] at h; exact absurd h (by simp [Except.bind])
  | ok rSc =>
    rw [h1] at h
    cases h2 : qcut (rankFirst (frequencyCol rs)) fmLabels with
    | error e => rw [h2] at h; exact absurd h (by simp [Except.bind])
    | ok fSc =>
      rw [h2] at h
      cases h3 : qcut (monetaryCol rs) fmLabels with
      | error e => rw [h3] at h; exact absurd h (by simp [Except.bind])
      | ok mSc =>
        rw [h3] at h
        obtain ⟨hne1, hnd1, hval1⟩ := qcut_ok_iff.1 h1
        obtain ⟨hne2, hnd2, hval2⟩ := qcut_ok_iff.1 h2
        obtain ⟨hne3, hnd3, hval3⟩ := qcut_ok_iff.1 h3
        refine ⟨hne1, hnd1, hnd2, hnd3, ?_⟩
        have hrows : rows = (List.range (customersOf rs).length).map (fun i =>
            { customerID := (customersOf rs).getD i 0
              recency := recency rs ((customersOf rs).getD i 0)
              frequency := frequency rs ((customersOf rs).getD i 0)
              monetary := monetary rs ((customersOf rs).getD i 0)
              rScore := rSc.getD i 0
              fScore := fSc.getD i 0
              mScore := mSc.getD i 0
              rfmScore := rfmCode (rSc.getD i 0) (fSc.getD i 0)
                (mSc.getD i 0) }) := by
          simpa [Except.bind] using h.symm
        rw [hrows]
        subst hval1 hval2 hval3
        rfl

theorem engineRows_of_ok {rs : List CleanRecord} {rows : List CustomerScore}
    (h : rfmEngine rs = .ok rows) : engineRows rs = rows := by
  simp [engineRows, h, Except.toOption]

theorem isOk_iff_exists {rs : List CleanRecord} :
    (rfmEngine rs).isOk = true ↔ ∃ rows, rfmEngine rs = .ok rows := by
  cases h : rfmEngine rs <;> simp [Except.isOk, Except.toBool, h]

/-- `getD` through a `map`, inside the length. -/
theorem getD_map_of_lt {α β : Type} {l : List α} {f : α → β} {i : ℕ}
    (h : i < l.length) (d : β) (d' : α) :
    (l.map f).getD i d = f (l.getD i d') := by
  rw [List.getD_eq_getElem _ _ (by simpa using h), List.getD_eq_getElem _ _ h,
    List.getElem_map]

/-- Membership in the rows of a successful run. -/
theorem mem_rows_iff {rs : List CleanRecord} {rows : List CustomerScore}
    (h : rfmEngine rs = .ok rows) {row : CustomerScore} :
    row ∈ rows ↔ ∃ i < (customersOf rs).length, row = scoreRow rs i := by
  rw [(rfmEngine_ok_anatomy h).2.2.2.2]
  simp only [List.mem_map, List.mem_range]
  constructor
  · rintro ⟨i, hi, rfl⟩; exact ⟨i, hi, rfl⟩
  · rintro ⟨i, hi, rfl⟩; exact ⟨i, hi, rfl⟩

/-! ## Sorting and quantile bounds -/

theorem sortQ_perm (xs : List ℚ) : List.Perm (sortQ xs) xs :=
  List.perm_insertionSort _ _

theorem sortQ_sorted (xs : List ℚ) : (sortQ xs).Sorted (· ≤ ·) :=
  List.sorted_insertionSort _ _

theorem sortQ_length (xs : List ℚ) : (sortQ xs).length = xs.length :=
  (sortQ_perm xs).length_eq

theorem mem_sortQ {xs : List ℚ} {a : ℚ} : a ∈ sortQ xs ↔ a ∈ xs :=
  (sortQ_perm xs).mem_iff

theorem sortQ_getD_mem {xs : List ℚ} {i : ℕ} (h : i < (sortQ xs).length) :
    (sortQ xs).getD i 0 ∈ xs := by
  rw [List.getD_eq_getElem _ _ h]
  exact mem_sortQ.1 (List.getElem_mem h)

theorem sortQ_getD_le {xs : List ℚ} {i j : ℕ} (hij : i ≤ j)
    (hj : j < (sortQ xs).length) :
    (sortQ xs).getD i 0 ≤ (sortQ xs).getD j 0 := by
  rw [List.getD_eq_getElem _ _ (lt_of_le_of_lt hij hj), List.getD_eq_getElem _ _ hj]
  rcases eq_or_lt_of_le hij with rfl | hlt
  · exact le_refl _
  · exact List.Sorted.rel_get_of_lt (sortQ_sorted xs)
      (show (⟨i, lt_of_le_of_lt hij hj⟩ : Fin (sortQ xs).length) < ⟨j, hj⟩
        from Fin.mk_lt_mk.mpr hlt)

/-- `quantileAt` with its lets spelled out. -/
theorem quantileAt_def (s : List ℚ) (j : ℕ) :
    quantileAt s j =
      s.getD ((s.length - 1) * j / 10) 0 +
        (((s.length : ℚ) - 1) * j / 10 - (((s.length - 1) * j / 10 : ℕ) : ℚ)) *
          (s.getD ((s.length - 1) * j / 10 + 1) (s.getD ((s.length - 1) * j / 10) 0)
            - s.getD ((s.length - 1) * j / 10) 0) := rfl

/-- `(n-1)*j/10` in ℕ is the floor of the rational `(n-1)*j/10` (n ≥ 1). -/
theorem quantile_frac_bounds {n : ℕ} (hn : 1 ≤ n) (j : ℕ) :
    (((n - 1) * j / 10 : ℕ) : ℚ) ≤ ((n : ℚ) - 1) * j / 10 ∧
      ((n : ℚ) - 1) * j / 10 < (((n - 1) * j / 10 : ℕ) : ℚ) + 1 := by
  have hcast : ((n : ℚ) - 1) * j = (((n - 1) * j : ℕ) : ℚ) := by
    push_cast [Nat.cast_sub hn]
    ring
  constructor
  · rw [hcast, le_div_iff₀ (by norm_num : (0 : ℚ) < 10)]
    exact_mod_cast Nat.div_mul_le_self ((n - 1) * j) 10
  · rw [hcast, div_lt_iff₀ (by norm_num : (0 : ℚ) < 10)]
    have : (n - 1) * j < ((n - 1) * j / 10 + 1) * 10 := by omega
    exact_mod_cast this

theorem quantile_index_le {n j : ℕ} (hj : j ≤ 10) : (n - 1) * j / 10 ≤ n - 1 := by
  have h1 : (n - 1) * j ≤ (n - 1) * 10 := Nat.mul_le_mul_left _ hj
  have h2 : (n - 1) * 10 / 10 = n - 1 := Nat.mul_div_cancel _ (by norm_num)
  calc (n - 1) * j / 10 ≤ (n - 1) * 10 / 10 := Nat.div_le_div_right h1
    _ = n - 1 := h2

theorem quantileAt_ge_min {xs : List ℚ} {v : ℚ} (hne : xs ≠ [])
    (hmin : ∀ x ∈ xs, v ≤ x) {j : ℕ} (hj : j ≤ 10) :
    v ≤ quantileAt (sortQ xs) j := by
  have hn : 1 ≤ (sortQ xs).length := by
    rw [sortQ_length]
    exact List.length_pos.2 hne
  rw [quantileAt_def]
  set s := sortQ xs with hs
  set b := (s.length - 1) * j / 10 with hbdef
  have hblt : b < s.length := lt_of_le_of_lt (quantile_index_le hj) (by omega)
  have hlo : v ≤ s.getD b 0 := hmin _ (sortQ_getD_mem hblt)
  obtain ⟨hfr0, hfr1⟩ := quantile_frac_bounds hn j
  have hfrac : (0 : ℚ) ≤ ((s.length : ℚ) - 1) * j / 10 - (b : ℚ) := by
    rw [hbdef]; linarith
  by_cases hb1 : b + 1 < s.length
  · have hup : s.getD b 0 ≤ s.getD (b + 1) (s.getD b 0) := by
      rw [List.getD_eq_getElem _ _ hb1, ← List.getD_eq_getElem s 0 hb1]
      exact sortQ_getD_le (Nat.le_succ b) hb1
    nlinarith [mul_nonneg hfrac (sub_nonneg.2 hup)]
  · rw [List.getD_eq_default _ _ (Nat.le_of_not_lt hb1)]
    simp only [sub_self, mul_zero]
    linarith

theorem quantileAt_le_max {xs : List ℚ} {v : ℚ} (hne : xs ≠ [])
    (hmax : ∀ x ∈ xs, x ≤ v) {j : ℕ} (hj : j ≤ 10) :
    quantileAt (sortQ xs) j ≤ v := by
  have hn : 1 ≤ (sortQ xs).length := by
    rw [sortQ_length]
    exact List.length_pos.2 hne
  rw [quantileAt_def]
  set s := sortQ xs with hs
  set b := (s.length - 1) * j / 10 with hbdef
  have hblt : b < s.length := lt_of_le_of_lt (quantile_index_le hj) (by omega)
  have hlo : s.getD b 0 ≤ v := hmax _ (sortQ_getD_mem hblt)
  obtain ⟨hfr0, hfr1⟩ := quantile_frac_bounds hn j
  have hfrac0 : (0 : ℚ) ≤ ((s.length : ℚ) - 1) * j / 10 - (b : ℚ) := by
    rw [hbdef]; linarith
  have hfrac1 : ((s.length : ℚ) - 1) * j / 10 - (b : ℚ) < 1 := by
    rw [hbdef]; linarith
  by_cases hb1 : b + 1 < s.length
  · have hhi : s.getD (b + 1) (s.getD b 0) ≤ v := by
      rw [List.getD_eq_getElem _ _ hb1, ← List.getD_eq_getElem s 0 hb1]
      exact hmax _ (sortQ_getD_mem hb1)
    have hup : s.getD b 0 ≤ s.getD (b + 1) (s.getD b 0) := by
      rw [List.getD_eq_getElem _ _ hb1, ← List.getD_eq_getElem s 0 hb1]
      exact sortQ_getD_le (Nat.le_succ b) hb1
    nlinarith
  · rw [List.getD_eq_default _ _ (Nat.le_of_not_lt hb1)]
    simp only [sub_self, mul_zero]
    linarith

/-- The top edge is the maximum of the column. -/
theorem quantileAt_ten {s : List ℚ} (h : 1 ≤ s.length) :
    quantileAt s 10 = s.getD (s.length - 1) 0 := by
  rw [quantileAt_def]
  have hb : (s.length - 1) * 10 / 10 = s.length - 1 :=
    Nat.mul_div_cancel _ (by norm_num)
  rw [hb]
  have hfrac : ((s.length : ℚ) - 1) * (((10 : ℕ)) : ℚ) / 10
      - ((s.length - 1 : ℕ) : ℚ) = 0 := by
    rw [Nat.cast_sub h]
    push_cast
    ring
  rw [hfrac, zero_mul, add_zero]

theorem sortQ_top {xs : List ℚ} {v : ℚ} (hv : v ∈ xs) (hmax : ∀ x ∈ xs, x ≤ v) :
    (sortQ xs).getD ((sortQ xs).length - 1) 0 = v := by
  have hne : xs ≠ [] := List.ne_nil_of_mem hv
  have hn : 1 ≤ (sortQ xs).length := by
    rw [sortQ_length]; exact List.length_pos.2 hne
  have hmem : (sortQ xs).getD ((sortQ xs).length - 1) 0 ∈ xs :=
    sortQ_getD_mem (by omega)
  refine le_antisymm (hmax _ hmem) ?_
  obtain ⟨i, hi, hiv⟩ := List.mem_iff_getElem.1 (mem_sortQ.2 hv)
  rw [← hiv, ← List.getD_eq_getElem _ 0 hi]
  exact sortQ_getD_le (by omega) (by omega)

/-! ## Bin placement -/

theorem binIndex_le_nine (xs : List ℚ) (v : ℚ) : binIndex xs v ≤ 9 := by
  unfold binIndex
  calc _ ≤ ((List.range 9).map (fun t => quantileAt (sortQ xs) (t + 1))).length :=
        List.countP_le_length _
    _ = 9 := by simp

theorem binIndex_mono (xs : List ℚ) {v w : ℚ} (hvw : v ≤ w) :
    binIndex xs v ≤ binIndex xs w := by
  unfold binIndex
  apply List.countP_mono_left
  intro e _ hp
  simp only [decide_eq_true_eq] at hp ⊢
  exact lt_of_lt_of_le hp hvw

/-- The minimum of the column always lands in the lowest bin. -/
theorem binIndex_min_eq_zero {xs : List ℚ} {v : ℚ} (hv : v ∈ xs)
    (hmin : ∀ x ∈ xs, v ≤ x) : binIndex xs v = 0 := by
  unfold binIndex
  rw [List.countP_eq_zero]
  intro e he
  obtain ⟨t, ht, rfl⟩ := List.mem_map.1 he
  have ht10 : t + 1 ≤ 10 := by
    simp only [List.mem_range] at ht; omega
  have := quantileAt_ge_min (List.ne_nil_of_mem hv) hmin ht10
  simp only [decide_eq_true_eq]
  exact not_lt.2 this

/-- When the engine completes (distinct edges), the maximum of the column
lands in the top bin. -/
theorem binIndex_max_eq_nine {xs : List ℚ} {v : ℚ} (hv : v ∈ xs)
    (hmax : ∀ x ∈ xs, x ≤ v) (hnd : (quantileEdges xs).Nodup) :
    binIndex xs v = 9 := by
  have hne : xs ≠ [] := List.ne_nil_of_mem hv
  have hn : 1 ≤ (sortQ xs).length := by
    rw [sortQ_length]; exact List.length_pos.2 hne
  have hv10 : quantileAt (sortQ xs) 10 = v := by
    rw [quantileAt_ten hn]
    exact sortQ_top hv hmax
  have hall : ∀ e ∈ (List.range 9).map (fun t => quantileAt (sortQ xs) (t + 1)),
      decide (e < v) = true := by
    intro e he
    obtain ⟨t, ht, rfl⟩ := List.mem_map.1 he
    simp only [List.mem_range] at ht
    have hle : quantileAt (sortQ xs) (t + 1) ≤ v :=
      quantileAt_le_max hne hmax (by omega)
    have hne10 : quantileAt (sortQ xs) (t + 1) ≠ quantileAt (sortQ xs) 10 := by
      intro heq
      have hlt1 : t + 1 < (quantileEdges xs).length := by
        simp only [quantileEdges, List.length_map, List.length_range]; omega
      have hlt2 : 10 < (quantileEdges xs).length := by
        simp only [quantileEdges, List.length_map, List.length_range]; omega
      have h1 : (quantileEdges xs).get ⟨t + 1, hlt1⟩
          = quantileAt (sortQ xs) (t + 1) := by
        simp [quantileEdges]
      have h2 : (quantileEdges xs).get ⟨10, hlt2⟩ = quantileAt (sortQ xs) 10 := by
        simp [quantileEdges]
      have hget : (quantileEdges xs).get ⟨t + 1, hlt1⟩
          = (quantileEdges xs).get ⟨10, hlt2⟩ := by
        rw [h1, h2]
        exact heq
      have hinj := (List.Nodup.get_inj_iff hnd).1 hget
      simp only [Fin.mk.injEq] at hinj
      omega
    simp only [decide_eq_true_eq]
    exact lt_of_le_of_ne hle (hv10 ▸ hne10)
  unfold binIndex
  rw [List.countP_eq_length.2 hall]
  simp

theorem list_sum_map_add (f g : ℕ → ℚ) :
    ∀ cs : List ℕ,
      (cs.map (fun c => f c + g c)).sum = (cs.map f).sum + (cs.map g).sum := by
  intro cs
  induction cs with
  | nil => simp
  | cons a cs ihc => simp only [List.map_cons, List.sum_cons, ihc]; ring

theorem sum_monetary_eq (rs : List CleanRecord) :
    ∀ cs : List ℕ, cs.Nodup → (∀ r ∈ rs, r.customerID ∈ cs) →
      (cs.map (fun c => monetary rs c)).sum = (rs.map (fun r => r.totalPrice)).sum := by
  induction rs with
  | nil =>
    intro cs _ _
    simp [monetary, recordsOf]
  | cons r rs ih =>
    intro cs hnd hsub
    have hstep : (cs.map (fun c => monetary (r :: rs) c)).sum
        = (cs.map (fun c => (if r.customerID = c then r.totalPrice else 0)
            + monetary rs c)).sum := by
      apply congrArg
      apply List.map_congr_left
      intro c _
      exact monetary_cons r rs c
    rw [hstep, list_sum_map_add _ _ cs]
    rw [sum_map_ite_of_nodup r.totalPrice r.customerID cs hnd
        (hsub r (List.mem_cons_self _ _)),
      ih cs hnd (fun x hx => hsub x (List.mem_cons_of_mem _ hx))]
    simp

/-! ## Failure on empty and singleton populations -/

theorem sortQ_singleton (x : ℚ) : sortQ [x] = [x] := rfl

theorem quantileAt_singleton (x : ℚ) (j : ℕ) : quantileAt [x] j = x := by
  rw [quantileAt_def]
  norm_num

theorem quantileEdges_singleton_not_nodup (x : ℚ) :
    ¬ (quantileEdges [x]).Nodup := by
  intro h
  have hlen : (quantileEdges [x]).length = 11 := by
    simp [quantileEdges]
  have h0 : (quantileEdges [x]).get ⟨0, by omega⟩ = x := by
    simp [quantileEdges, sortQ_singleton, quantileAt_singleton]
  have h1 : (quantileEdges [x]).get ⟨1, by omega⟩ = x := by
    simp [quantileEdges, sortQ_singleton, quantileAt_singleton]
  have := (List.Nodup.get_inj_iff h).1 (h0.trans h1.symm)
  simp at this

theorem qcut_singleton_error (v : ℚ) (labels : List ℕ) :
    qcut [v] labels = .error "Bin edges must be unique" := by
  unfold qcut
  rw [if_neg (by simp), if_neg (quantileEdges_singleton_not_nodup v)]

theorem rfmEngine_error_of_no_customers {rs : List CleanRecord}
    (h : customersOf rs = []) : rfmEngine rs = .error "qcut: empty input" := by
  have hcol : recencyCol rs = [] := by simp [recencyCol, h]
  rw [rfmEngine_eq_bind, hcol]
  rfl

theorem rfmEngine_error_of_single_customer {rs : List CleanRecord} {c : ℕ}
    (h : customersOf rs = [c]) :
    rfmEngine rs = .error "Bin edges must be unique" := by
  have hcol : recencyCol rs = [((recency rs c : ℤ) : ℚ)] := by
    simp [recencyCol, h]
  rw [rfmEngine_eq_bind, hcol, qcut_singleton_error]
  rfl


/-! ## Metric bounds: recency is at least one day -/

theorem le_foldl_max (l : List ℤ) :
    ∀ x, ∀ y ∈ x :: l, y ≤ l.foldl max x := by
  induction l with
  | nil =>
    intro x y hy
    simp only [List.mem_singleton] at hy
    simp [hy]
  | cons z l ih =>
    intro x y hy
    simp only [List.foldl_cons]
    rcases List.mem_cons.1 hy with rfl | hy
    · exact le_trans (le_max_left y z) (ih (max y z) _ (List.mem_cons_self _ _))
    · rcases List.mem_cons.1 hy with rfl | hy
      · exact le_trans (le_max_right x y) (ih (max x y) _ (List.mem_cons_self _ _))
      · exact ih (max x z) y (List.mem_cons_of_mem _ hy)

theorem foldl_max_mem (l : List ℤ) : ∀ x, l.foldl max x ∈ x :: l := by
  induction l with
  | nil => intro x; simp
  | cons z l ih =>
    intro x
    simp only [List.foldl_cons]
    rcases List.mem_cons.1 (ih (max x z)) with hEq | hMem
    · rw [hEq]
      rcases max_choice x z with hc | hc
      · rw [hc]; exact List.mem_cons_self _ _
      · rw [hc]; exact List.mem_cons_of_mem _ (List.mem_cons_self _ _)
    · exact List.mem_cons_of_mem _ (List.mem_cons_of_mem _ hMem)

theorem maxDate_ge {rs : List CleanRecord} :
    ∀ r ∈ rs, r.invoiceDate ≤ maxDate rs := by
  cases rs with
  | nil => simp
  | cons a l =>
    intro r hr
    have : maxDate (a :: l) = (l.map (fun r => r.invoiceDate)).foldl max a.invoiceDate := rfl
    rw [this]
    apply le_foldl_max (l.map (fun r => r.invoiceDate)) a.invoiceDate
    rcases List.mem_cons.1 hr with rfl | hr
    · exact List.mem_cons_self _ _
    · exact List.mem_cons_of_mem _ (List.mem_map.2 ⟨r, hr, rfl⟩)

theorem maxDate_mem {rs : List CleanRecord} (hne : rs ≠ []) :
    maxDate rs ∈ rs.map (fun r => r.invoiceDate) := by
  cases rs with
  | nil => exact absurd rfl hne
  | cons a l =>
    have : maxDate (a :: l) = (l.map (fun r => r.invoiceDate)).foldl max a.invoiceDate := rfl
    rw [this]
    simpa using foldl_max_mem (l.map (fun r => r.invoiceDate)) a.invoiceDate

theorem mem_recordsOf {rs : List CleanRecord} {c : ℕ} {r : CleanRecord} :
    r ∈ recordsOf rs c ↔ r ∈ rs ∧ r.customerID = c := by
  simp [recordsOf]

theorem recordsOf_ne_nil {rs : List CleanRecord} {c : ℕ}
    (hc : c ∈ customersOf rs) : recordsOf rs c ≠ [] := by
  obtain ⟨r, hr, rfl⟩ := List.mem_map.1 (mem_customersOf.1 hc)
  exact List.ne_nil_of_mem (mem_recordsOf.2 ⟨hr, rfl⟩)

theorem maxDate_recordsOf_le {rs : List CleanRecord} {c : ℕ}
    (hc : recordsOf rs c ≠ []) : maxDate (recordsOf rs c) ≤ maxDate rs := by
  obtain ⟨r, hr, hd⟩ := List.mem_map.1 (maxDate_mem hc)
  rw [← hd]
  exact maxDate_ge r (mem_recordsOf.1 hr).1

theorem recency_ge_one {rs : List CleanRecord} {c : ℕ}
    (hc : c ∈ customersOf rs) : 1 ≤ recency rs c := by
  have h1 : maxDate (recordsOf rs c) ≤ maxDate rs :=
    maxDate_recordsOf_le (recordsOf_ne_nil hc)
  show 1 ≤ Int.fdiv (latestDate rs - maxDate (recordsOf rs c)) secondsPerDay
  rw [show latestDate rs = maxDate rs + secondsPerDay from rfl]
  rw [show secondsPerDay = (86400 : ℤ) from rfl]
  rw [Int.fdiv_eq_ediv _ (by norm_num)]
  rw [Int.le_ediv_iff_mul_le (by norm_num)]
  omega


/-! ## Ranking: `rank(method='first')` is an injective map onto 1..n -/

theorem rankFirst_length (xs : List ℚ) : (rankFirst xs).length = xs.length := by
  simp [rankFirst]

theorem rankFirst_getD {xs : List ℚ} {i : ℕ} (hi : i < xs.length) :
    (rankFirst xs).getD i 0 = (rankAt xs i : ℚ) := by
  unfold rankFirst
  rw [getD_map_of_lt (by simpa using hi) 0 0]
  have hrange : (List.range xs.length).getD i 0 = i := by
    rw [List.getD_eq_getElem _ _ (by simpa using hi)]
    exact List.getElem_range _ _
  rw [hrange]
  unfold rankAt
  push_cast
  ring

theorem countP_lt_add_eq (l : List ℚ) (v : ℚ) :
    l.countP (fun y => decide (y < v)) + l.countP (fun y => decide (y = v))
      = l.countP (fun y => decide (y ≤ v)) := by
  induction l with
  | nil => rfl
  | cons a l ih =>
    simp only [List.countP_cons]
    rcases lt_trichotomy a v with h | h | h
    · simp only [decide_eq_true_eq, h, if_true, ne_of_lt h, if_false,
        le_of_lt h]
      omega
    · subst h
      simp only [decide_eq_true_eq, lt_irrefl, if_false, if_true, le_refl]
      omega
    · simp only [decide_eq_true_eq, lt_asymm h, if_false, if_true,
        (ne_of_gt h : a ≠ v), not_le.2 h]
      omega

theorem countP_disjoint_le (l : List ℚ) (p q : ℚ → Bool)
    (h : ∀ a ∈ l, ¬(p a = true ∧ q a = true)) :
    l.countP p + l.countP q ≤ l.length := by
  induction l with
  | nil => simp
  | cons a l ih =>
    simp only [List.countP_cons, List.length_cons]
    have ha := h a (List.mem_cons_self _ _)
    have hrec := ih (fun x hx => h x (List.mem_cons_of_mem _ hx))
    by_cases hp : p a = true <;> by_cases hq : q a = true <;>
      simp [hp, hq] at ha ⊢ <;> omega

theorem drop_head_eq_getD {xs : List ℚ} {i : ℕ} (hi : i < xs.length) :
    xs.drop i = xs.getD i 0 :: xs.drop (i + 1) := by
  rw [List.getD_eq_getElem _ _ hi]
  exact List.drop_eq_getElem_cons hi

theorem countP_split_at (xs : List ℚ) (i : ℕ) (p : ℚ → Bool) :
    xs.countP p = (xs.take i).countP p + (xs.drop i).countP p := by
  conv_lhs => rw [← List.take_append_drop i xs]
  exact List.countP_append _ _ _

theorem rankAt_le_length {xs : List ℚ} {i : ℕ} (hi : i < xs.length) :
    rankAt xs i ≤ xs.length := by
  unfold rankAt
  set w := xs.getD i 0 with hw
  have hsplit := countP_split_at xs i (fun y => decide (y < w))
  have hdrop : (xs.drop i).countP (fun y => decide (y < w))
      = (xs.drop (i + 1)).countP (fun y => decide (y < w)) := by
    rw [drop_head_eq_getD hi, ← hw, List.countP_cons]
    simp
  have h1 : (xs.take i).countP (fun y => decide (y < w))
      + (xs.take i).countP (fun y => decide (y = w)) ≤ i := by
    have hd := countP_disjoint_le (xs.take i) (fun y => decide (y < w))
      (fun y => decide (y = w)) (by
        intro a _ hand
        simp only [decide_eq_true_eq] at hand
        exact absurd hand.2 (ne_of_lt hand.1))
    have hlen : (xs.take i).length ≤ i := by simp [List.length_take]
    omega
  have h2 : (xs.drop (i + 1)).countP (fun y => decide (y < w))
      ≤ xs.length - i - 1 := by
    have hle : (xs.drop (i + 1)).countP (fun y => decide (y < w))
        ≤ (xs.drop (i + 1)).length := List.countP_le_length _
    have hlen : (xs.drop (i + 1)).length = xs.length - i - 1 := by
      simp [List.length_drop]
      omega
    omega
  omega

theorem rankAt_lt_of_val_lt {xs : List ℚ} {i j : ℕ}
    (hi : i < xs.length) (hj : j < xs.length)
    (hv : xs.getD i 0 < xs.getD j 0) : rankAt xs i < rankAt xs j := by
  unfold rankAt
  set w := xs.getD i 0 with hw
  set u := xs.getD j 0 with hu
  have hsplit := countP_split_at xs i (fun y => decide (y = w))
  have hdrop : 1 ≤ (xs.drop i).countP (fun y => decide (y = w)) := by
    rw [drop_head_eq_getD hi, ← hw, List.countP_cons]
    simp
  have htle : (xs.take i).countP (fun y => decide (y = w))
      ≤ (xs.take i).length := List.countP_le_length _
  have hBi : (xs.take i).countP (fun y => decide (y = w)) + 1
      ≤ xs.countP (fun y => decide (y = w)) := by omega
  have hmono : xs.countP (fun y => decide (y ≤ w))
      ≤ xs.countP (fun y => decide (y < u)) := by
    apply List.countP_mono_left
    intro a _ ha
    simp only [decide_eq_true_eq] at ha ⊢
    exact lt_of_le_of_lt ha hv
  have hsum := countP_lt_add_eq xs w
  omega

theorem rankAt_lt_of_val_eq {xs : List ℚ} {i j : ℕ}
    (hij : i < j) (hj : j < xs.length)
    (hv : xs.getD i 0 = xs.getD j 0) : rankAt xs i < rankAt xs j := by
  have hi : i < xs.length := lt_trans hij hj
  clear hj
  unfold rankAt
  rw [← hv]
  set w := xs.getD i 0 with hw
  have htake : xs.take j = xs.take i ++ (xs.drop i).take (j - i) := by
    conv_lhs => rw [show j = i + (j - i) by omega]
    rw [List.take_add]
  have hseg : 1 ≤ ((xs.drop i).take (j - i)).countP
      (fun y => decide (y = w)) := by
    rw [drop_head_eq_getD hi, ← hw]
    rw [show j - i = (j - i - 1) + 1 by omega, List.take_succ_cons,
      List.countP_cons]
    simp
  have hsplit : (xs.take j).countP (fun y => decide (y = w))
      = (xs.take i).countP (fun y => decide (y = w))
        + ((xs.drop i).take (j - i)).countP (fun y => decide (y = w)) := by
    rw [htake]
    exact List.countP_append _ _ _
  omega

theorem rankAt_ne {xs : List ℚ} {i j : ℕ} (hij : i < j) (hj : j < xs.length) :
    rankAt xs i ≠ rankAt xs j := by
  have hi : i < xs.length := lt_trans hij hj
  rcases lt_trichotomy (xs.getD i 0) (xs.getD j 0) with h | h | h
  · exact ne_of_lt (rankAt_lt_of_val_lt hi hj h)
  · exact ne_of_lt (rankAt_lt_of_val_eq hij hj h)
  · exact ne_of_gt (rankAt_lt_of_val_lt hj hi h)

theorem rankFirst_nodup (xs : List ℚ) : (rankFirst xs).Nodup := by
  rw [List.Nodup, List.pairwise_iff_getElem]
  intro i j hi hj hij
  have hi0 : i < xs.length := by rw [rankFirst_length] at hi; exact hi
  have hj0 : j < xs.length := by rw [rankFirst_length] at hj; exact hj
  have h1 : (rankFirst xs)[i] = ((rankAt xs i : ℕ) : ℚ) := by
    rw [← List.getD_eq_getElem _ 0, rankFirst_getD hi0]
  have h2 : (rankFirst xs)[j] = ((rankAt xs j : ℕ) : ℚ) := by
    rw [← List.getD_eq_getElem _ 0, rankFirst_getD hj0]
  rw [h1, h2]
  intro hcast
  exact rankAt_ne hij hj0 (by exact_mod_cast hcast)


/-! ## Counting by position, and extreme ranks -/

theorem countP_index (l : List ℚ) (p : ℚ → Bool) :
    l.countP p = (List.range l.length).countP (fun i => p (l.getD i 0)) := by
  induction l with
  | nil => rfl
  | cons a l ih =>
    rw [List.countP_cons, List.length_cons, List.range_succ_eq_map,
      List.countP_cons, List.countP_map]
    have h1 : (List.range l.length).countP
        ((fun i => p ((a :: l).getD i 0)) ∘ Nat.succ)
        = (List.range l.length).countP (fun i => p (l.getD i 0)) := by
      apply List.countP_congr
      intro i _
      simp [Function.comp, List.getD_cons_succ]
    rw [h1, ih]
    simp [List.getD_cons_zero]

theorem countP_range_eq_one {n i : ℕ} (hi : i < n) :
    (List.range n).countP (fun j => decide (j = i)) = 1 := by
  induction n with
  | zero => omega
  | succ n ih =>
    rw [List.range_succ, List.countP_append]
    rcases Nat.lt_or_ge i n with h | h
    · rw [ih h]
      simp only [List.countP_singleton]
      rw [if_neg (by simp; omega)]
    · have hie : i = n := by omega
      subst hie
      have h0 : (List.range i).countP (fun j => decide (j = i)) = 0 := by
        rw [List.countP_eq_zero]
        intro a ha
        simp only [List.mem_range] at ha
        simp
        omega
      rw [h0]
      simp

theorem countP_compl (l : List ℕ) (p : ℕ → Bool) :
    l.countP p + l.countP (fun a => !p a) = l.length := by
  induction l with
  | nil => simp
  | cons a l ih =>
    simp only [List.countP_cons, List.length_cons]
    by_cases hp : p a = true <;> simp [hp] <;> omega

theorem countP_range_ne {n i : ℕ} (hi : i < n) :
    (List.range n).countP (fun j => decide (j ≠ i)) = n - 1 := by
  have h1 := countP_compl (List.range n) (fun j => decide (j = i))
  have h2 := countP_range_eq_one hi
  have h3 : (List.range n).countP (fun a => !decide (a = i))
      = (List.range n).countP (fun j => decide (j ≠ i)) := by
    apply List.countP_congr
    intro a _
    simp [decide_not]
  simp only [List.length_range] at h1
  omega

theorem mem_take_getD {xs : List ℚ} {i : ℕ} {y : ℚ} (h : y ∈ xs.take i) :
    ∃ j, j < i ∧ j < xs.length ∧ xs.getD j 0 = y := by
  obtain ⟨j, hj, hy⟩ := List.mem_iff_getElem.1 h
  have hlen : j < i ∧ j < xs.length := by
    simp [List.length_take] at hj
    omega
  refine ⟨j, hlen.1, hlen.2, ?_⟩
  rw [List.getD_eq_getElem _ _ hlen.2]
  rw [← hy, List.getElem_take]

theorem mem_getD_of_mem {xs : List ℚ} {y : ℚ} (h : y ∈ xs) :
    ∃ j, j < xs.length ∧ xs.getD j 0 = y := by
  obtain ⟨j, hj, hy⟩ := List.mem_iff_getElem.1 h
  exact ⟨j, hj, by rw [List.getD_eq_getElem _ _ hj]; exact hy⟩

/-- Rank of a strict maximum: exactly the population size. -/
theorem rankAt_of_strict_max {xs : List ℚ} {i : ℕ} (hi : i < xs.length)
    (hmax : ∀ j, j < xs.length → j ≠ i → xs.getD j 0 < xs.getD i 0) :
    rankAt xs i = xs.length := by
  unfold rankAt
  have hA : xs.countP (fun y => decide (y < xs.getD i 0)) = xs.length - 1 := by
    rw [countP_index]
    have hcongr : (List.range xs.length).countP
        (fun j => decide (xs.getD j 0 < xs.getD i 0))
        = (List.range xs.length).countP (fun j => decide (j ≠ i)) := by
      apply List.countP_congr
      intro j hj
      simp only [List.mem_range] at hj
      by_cases hji : j = i
      · subst hji
        rw [decide_eq_false (lt_irrefl _), decide_eq_false (by simp)]
      · rw [decide_eq_true (hmax j hj hji), decide_eq_true hji]
    rw [hcongr, countP_range_ne hi]
  have hB : (xs.take i).countP (fun y => decide (y = xs.getD i 0)) = 0 := by
    rw [List.countP_eq_zero]
    intro y hy
    obtain ⟨j, hji, hjlen, hjv⟩ := mem_take_getD hy
    have := hmax j hjlen (by omega)
    simp only [decide_eq_true_eq]
    rw [← hjv]
    exact ne_of_lt this
  rw [hA, hB]
  omega

/-- Rank of a strict minimum: 1. -/
theorem rankAt_of_strict_min {xs : List ℚ} {i : ℕ} (hi : i < xs.length)
    (hmin : ∀ j, j < xs.length → j ≠ i → xs.getD i 0 < xs.getD j 0) :
    rankAt xs i = 1 := by
  unfold rankAt
  have hA : xs.countP (fun y => decide (y < xs.getD i 0)) = 0 := by
    rw [List.countP_eq_zero]
    intro y hy
    obtain ⟨j, hjlen, hjv⟩ := mem_getD_of_mem hy
    simp only [decide_eq_true_eq]
    by_cases hji : j = i
    · subst hji
      rw [← hjv]
      exact lt_irrefl _
    · rw [← hjv]
      exact not_lt.2 (le_of_lt (hmin j hjlen hji))
  have hB : (xs.take i).countP (fun y => decide (y = xs.getD i 0)) = 0 := by
    rw [List.countP_eq_zero]
    intro y hy
    obtain ⟨j, hji, hjlen, hjv⟩ := mem_take_getD hy
    have := hmin j hjlen (by omega)
    simp only [decide_eq_true_eq]
    rw [← hjv]
    exact ne_of_gt this
  rw [hA, hB]

theorem rankFirst_getD_mem {xs : List ℚ} {i : ℕ} (hi : i < xs.length) :
    (rankFirst xs).getD i 0 ∈ rankFirst xs := by
  have h : i < (rankFirst xs).length := by rw [rankFirst_length]; exact hi
  rw [List.getD_eq_getElem _ _ h]
  exact List.getElem_mem h

theorem rankFirst_mem_bound {xs : List ℚ} {r : ℚ} (hr : r ∈ rankFirst xs) :
    ∃ m : ℕ, 1 ≤ m ∧ m ≤ xs.length ∧ r = (m : ℚ) := by
  obtain ⟨i, hi, hval⟩ := List.mem_iff_getElem.1 hr
  rw [rankFirst_length] at hi
  have := rankFirst_getD hi
  rw [List.getD_eq_getElem _ _ (by rw [rankFirst_length]; exact hi)] at this
  refine ⟨rankAt xs i, by unfold rankAt; omega, rankAt_le_length hi, ?_⟩
  rw [← hval, this]

theorem rankFirst_le_length {xs : List ℚ} {r : ℚ} (hr : r ∈ rankFirst xs) :
    r ≤ (xs.length : ℚ) := by
  obtain ⟨m, _, hm, rfl⟩ := rankFirst_mem_bound hr
  exact_mod_cast hm

theorem one_le_rankFirst {xs : List ℚ} {r : ℚ} (hr : r ∈ rankFirst xs) :
    (1 : ℚ) ≤ r := by
  obtain ⟨m, hm, _, rfl⟩ := rankFirst_mem_bound hr
  exact_mod_cast hm

/-! ## The sorted rank column is 1, 2, ..., n -/

/-- The ascending column `1, 2, ..., n` (as rationals). -/
theorem rankFirst_perm_range (xs : List ℚ) :
    List.Perm (rankFirst xs)
      ((List.range xs.length).map (fun i => ((i + 1 : ℕ) : ℚ))) := by
  apply List.Subperm.perm_of_length_le
  · apply List.subperm_of_subset (rankFirst_nodup xs)
    intro r hr
    obtain ⟨m, hm1, hmn, rfl⟩ := rankFirst_mem_bound hr
    apply List.mem_map.2
    exact ⟨m - 1, List.mem_range.2 (by omega), by
      congr 1
      omega⟩
  · simp [rankFirst_length]

theorem range_map_succ_sorted (n : ℕ) :
    ((List.range n).map (fun i => ((i + 1 : ℕ) : ℚ))).Sorted (· ≤ ·) := by
  rw [List.Sorted, List.pairwise_iff_getElem]
  intro i j hi hj hij
  simp only [List.length_map, List.length_range] at hi hj
  rw [List.getElem_map, List.getElem_map, List.getElem_range, List.getElem_range]
  have : i + 1 ≤ j + 1 := by omega
  exact_mod_cast this

theorem sortQ_rankFirst (xs : List ℚ) :
    sortQ (rankFirst xs)
      = (List.range xs.length).map (fun i => ((i + 1 : ℕ) : ℚ)) := by
  exact List.eq_of_perm_of_sorted ((sortQ_perm _).trans (rankFirst_perm_range xs))
    (sortQ_sorted _) (range_map_succ_sorted _)

theorem quantileAt_range_map {n : ℕ} (hn : 1 ≤ n) {j : ℕ} (hj : j ≤ 10) :
    quantileAt ((List.range n).map (fun i => ((i + 1 : ℕ) : ℚ))) j
      = 1 + ((n : ℚ) - 1) * j / 10 := by
  set s := (List.range n).map (fun i => ((i + 1 : ℕ) : ℚ)) with hs
  have hslen : s.length = n := by simp [hs]
  have hgetD : ∀ k, k < n → s.getD k 0 = ((k + 1 : ℕ) : ℚ) := by
    intro k hk
    have hk2 : k < s.length := by rw [hslen]; exact hk
    rw [List.getD_eq_getElem _ _ hk2]
    simp [hs]
  rw [quantileAt_def, hslen]
  set b := (n - 1) * j / 10 with hb
  have hble : b ≤ n - 1 := quantile_index_le hj
  have hblt : b < n := by omega
  obtain ⟨hf0, hf1⟩ := quantile_frac_bounds hn j
  rw [hgetD b hblt]
  by_cases hb1 : b + 1 < n
  · have hb2 : b + 1 < s.length := by rw [hslen]; exact hb1
    rw [List.getD_eq_getElem _ _ hb2]
    have hval2 : s[b + 1] = ((b + 2 : ℕ) : ℚ) := by
      simp [hs]
      ring
    rw [hval2]
    push_cast
    ring
  · have hbeq : b = n - 1 := by omega
    have hjeq : (n - 1) * j = (n - 1) * 10 := by
      have hge : (n - 1) * 10 ≤ (n - 1) * j := by
        rw [← Nat.le_div_iff_mul_le (by norm_num : 0 < 10), ← hb, hbeq]
      have hle : (n - 1) * j ≤ (n - 1) * 10 := Nat.mul_le_mul_left _ hj
      omega
    have hfrac : ((n : ℚ) - 1) * (j : ℚ) / 10 - (b : ℚ) = 0 := by
      have hcast : ((n : ℚ) - 1) * (j : ℚ) = (((n - 1) * j : ℕ) : ℚ) := by
        push_cast [Nat.cast_sub hn]
        ring
      rw [hcast, hjeq, hbeq]
      push_cast [Nat.cast_sub hn]
      ring
    rw [List.getD_eq_default _ _ (by rw [hslen]; omega), hfrac]
    have hval : ((b + 1 : ℕ) : ℚ) = 1 + ((n : ℚ) - 1) * (j : ℚ) / 10 := by
      have : ((n : ℚ) - 1) * (j : ℚ) / 10 = (b : ℚ) := by
        have := hfrac
        linarith
      rw [this, hbeq]
      push_cast [Nat.cast_sub hn]
      ring
    rw [zero_mul, add_zero]
    exact hval

/-- The frequency column, being binned on the tie-broken rank, always has
pairwise-distinct decile edges (for at least two customers). -/
theorem rankFirst_edges_nodup {xs : List ℚ} (h2 : 2 ≤ xs.length) :
    (quantileEdges (rankFirst xs)).Nodup := by
  have hlen : (rankFirst xs).length = xs.length := rankFirst_length xs
  have hsort := sortQ_rankFirst xs
  unfold quantileEdges
  rw [hsort]
  apply List.Nodup.map_on ?_ (List.nodup_range 11)
  intro j hj j2 hj2 heq
  simp only [List.mem_range] at hj hj2
  rw [quantileAt_range_map (by omega) (by omega),
    quantileAt_range_map (by omega) (by omega)] at heq
  have hne : ((xs.length : ℚ) - 1) ≠ 0 := by
    have : (2 : ℚ) ≤ (xs.length : ℚ) := by exact_mod_cast h2
    intro h
    nlinarith
  field_simp at heq
  rcases heq with h | h
  · exact h
  · exact absurd h hne


theorem frequencyCol_length (rs : List CleanRecord) :
    (frequencyCol rs).length = (customersOf rs).length := by
  simp [frequencyCol]

/-- With at least two customers, the frequency scoring step cannot fail:
its binning input is the tie-broken rank column. -/
theorem frequency_qcut_ok {rs : List CleanRecord}
    (h2 : 2 ≤ (customersOf rs).length) :
    ∃ ys, qcut (rankFirst (frequencyCol rs)) fmLabels = .ok ys := by
  refine ⟨_, qcut_ok_iff.2 ⟨?_, ?_, rfl⟩⟩
  · intro h
    have hl := congrArg List.length h
    rw [rankFirst_length, frequencyCol_length] at hl
    simp only [List.length_nil] at hl
    omega
  · exact rankFirst_edges_nodup (by rw [frequencyCol_length]; exact h2)


/-! ## Row-level anatomy of a successful run -/

theorem getD_mem_q {l : List ℚ} {i : ℕ} (hi : i < l.length) :
    l.getD i 0 ∈ l := by
  rw [List.getD_eq_getElem _ _ hi]
  exact List.getElem_mem hi

theorem recencyCol_length (rs : List CleanRecord) :
    (recencyCol rs).length = (customersOf rs).length := by
  simp [recencyCol]

theorem monetaryCol_length (rs : List CleanRecord) :
    (monetaryCol rs).length = (customersOf rs).length := by
  simp [monetaryCol]

theorem recencyCol_getD {rs : List CleanRecord} {i : ℕ}
    (hi : i < (customersOf rs).length) :
    (recencyCol rs).getD i 0
      = ((recency rs ((customersOf rs).getD i 0) : ℤ) : ℚ) := by
  unfold recencyCol
  rw [getD_map_of_lt hi _ 0]

theorem frequencyCol_getD {rs : List CleanRecord} {i : ℕ}
    (hi : i < (customersOf rs).length) :
    (frequencyCol rs).getD i 0
      = ((frequency rs ((customersOf rs).getD i 0) : ℕ) : ℚ) := by
  unfold frequencyCol
  rw [getD_map_of_lt hi _ 0]

theorem monetaryCol_getD {rs : List CleanRecord} {i : ℕ}
    (hi : i < (customersOf rs).length) :
    (monetaryCol rs).getD i 0
      = monetary rs ((customersOf rs).getD i 0) := by
  unfold monetaryCol
  rw [getD_map_of_lt hi _ 0]

theorem rScoresOf_getD {rs : List CleanRecord} {i : ℕ}
    (hi : i < (customersOf rs).length) :
    (rScoresOf rs).getD i 0
      = rLabels.getD (binIndex (recencyCol rs) ((recencyCol rs).getD i 0)) 0 := by
  unfold rScoresOf
  rw [getD_map_of_lt (by rw [recencyCol_length]; exact hi) _ 0]

theorem fScoresOf_getD {rs : List CleanRecord} {i : ℕ}
    (hi : i < (customersOf rs).length) :
    (fScoresOf rs).getD i 0
      = fmLabels.getD (binIndex (rankFirst (frequencyCol rs))
          ((rankFirst (frequencyCol rs)).getD i 0)) 0 := by
  unfold fScoresOf
  rw [getD_map_of_lt
    (by rw [rankFirst_length, frequencyCol_length]; exact hi) _ 0]

theorem mScoresOf_getD {rs : List CleanRecord} {i : ℕ}
    (hi : i < (customersOf rs).length) :
    (mScoresOf rs).getD i 0
      = fmLabels.getD (binIndex (monetaryCol rs) ((monetaryCol rs).getD i 0)) 0 := by
  unfold mScoresOf
  rw [getD_map_of_lt (by rw [monetaryCol_length]; exact hi) _ 0]

theorem rLabels_getD {k : ℕ} (hk : k ≤ 9) : rLabels.getD k 0 = 10 - k := by
  have h : ∀ k, k < 10 → rLabels.getD k 0 = 10 - k := by decide
  exact h k (by omega)

theorem fmLabels_getD {k : ℕ} (hk : k ≤ 9) : fmLabels.getD k 0 = k + 1 := by
  have h : ∀ k, k < 10 → fmLabels.getD k 0 = k + 1 := by decide
  exact h k (by omega)

/-- Every member of the recency column is the recency of one of the rows. -/
theorem recencyCol_member {rs : List CleanRecord} {rows : List CustomerScore}
    (hok : rfmEngine rs = .ok rows) {v : ℚ} (hv : v ∈ recencyCol rs) :
    ∃ q ∈ rows, v = ((q.recency : ℤ) : ℚ) := by
  obtain ⟨i, hi, hval⟩ := mem_getD_of_mem hv
  rw [recencyCol_length] at hi
  refine ⟨scoreRow rs i, (mem_rows_iff hok).2 ⟨i, hi, rfl⟩, ?_⟩
  rw [← hval, recencyCol_getD hi]
  rfl

theorem monetaryCol_member {rs : List CleanRecord} {rows : List CustomerScore}
    (hok : rfmEngine rs = .ok rows) {v : ℚ} (hv : v ∈ monetaryCol rs) :
    ∃ q ∈ rows, v = q.monetary := by
  obtain ⟨i, hi, hval⟩ := mem_getD_of_mem hv
  rw [monetaryCol_length] at hi
  refine ⟨scoreRow rs i, (mem_rows_iff hok).2 ⟨i, hi, rfl⟩, ?_⟩
  rw [← hval, monetaryCol_getD hi]
  rfl


/-! ## Score placement helpers -/

theorem customersOf_getD_mem {rs : List CleanRecord} {i : ℕ}
    (hi : i < (customersOf rs).length) :
    (customersOf rs).getD i 0 ∈ customersOf rs := by
  rw [List.getD_eq_getElem _ _ hi]
  exact List.getElem_mem hi

theorem customersOf_getD_inj {rs : List CleanRecord} {i j : ℕ}
    (hi : i < (customersOf rs).length) (hj : j < (customersOf rs).length)
    (h : (customersOf rs).getD i 0 = (customersOf rs).getD j 0) : i = j := by
  rw [List.getD_eq_getElem _ _ hi, List.getD_eq_getElem _ _ hj] at h
  have := (List.Nodup.get_inj_iff (customersOf_nodup rs)
    (i := ⟨i, hi⟩) (j := ⟨j, hj⟩)).1 h
  simpa using this

theorem scoreRow_recency (rs : List CleanRecord) (i : ℕ) :
    (scoreRow rs i).recency = recency rs ((customersOf rs).getD i 0) := rfl

theorem rScore_anti {rs : List CleanRecord} {rows : List CustomerScore}
    (hok : rfmEngine rs = .ok rows) {row row' : CustomerScore}
    (h1 : row ∈ rows) (h2 : row' ∈ rows)
    (h : row.recency ≤ row'.recency) : row'.rScore ≤ row.rScore := by
  obtain ⟨i, hi, rfl⟩ := (mem_rows_iff hok).1 h1
  obtain ⟨j, hj, rfl⟩ := (mem_rows_iff hok).1 h2
  show (rScoresOf rs).getD j 0 ≤ (rScoresOf rs).getD i 0
  rw [rScoresOf_getD hi, rScoresOf_getD hj]
  have hcast : (recencyCol rs).getD i 0 ≤ (recencyCol rs).getD j 0 := by
    rw [recencyCol_getD hi, recencyCol_getD hj]
    exact_mod_cast h
  have hmono := binIndex_mono (recencyCol rs) hcast
  have hb1 := binIndex_le_nine (recencyCol rs) ((recencyCol rs).getD i 0)
  have hb2 := binIndex_le_nine (recencyCol rs) ((recencyCol rs).getD j 0)
  rw [rLabels_getD hb1, rLabels_getD hb2]
  omega

theorem rScore_min_ten {rs : List CleanRecord} {rows : List CustomerScore}
    (hok : rfmEngine rs = .ok rows) {row : CustomerScore} (h1 : row ∈ rows)
    (hmin : ∀ q ∈ rows, row.recency ≤ q.recency) : row.rScore = 10 := by
  obtain ⟨i, hi, rfl⟩ := (mem_rows_iff hok).1 h1
  show (rScoresOf rs).getD i 0 = 10
  rw [rScoresOf_getD hi]
  have hzero : binIndex (recencyCol rs) ((recencyCol rs).getD i 0) = 0 := by
    apply binIndex_min_eq_zero (getD_mem_q (by rw [recencyCol_length]; exact hi))
    intro x hx
    obtain ⟨q, hq, rfl⟩ := recencyCol_member hok hx
    rw [recencyCol_getD hi]
    exact_mod_cast hmin q hq
  rw [hzero]
  rfl

theorem rScore_max_one {rs : List CleanRecord} {rows : List CustomerScore}
    (hok : rfmEngine rs = .ok rows) {row : CustomerScore} (h1 : row ∈ rows)
    (hmax : ∀ q ∈ rows, q.recency ≤ row.recency) : row.rScore = 1 := by
  obtain ⟨i, hi, rfl⟩ := (mem_rows_iff hok).1 h1
  show (rScoresOf rs).getD i 0 = 1
  rw [rScoresOf_getD hi]
  have hnine : binIndex (recencyCol rs) ((recencyCol rs).getD i 0) = 9 := by
    apply binIndex_max_eq_nine (getD_mem_q (by rw [recencyCol_length]; exact hi))
      ?_ (rfmEngine_ok_anatomy hok).2.1
    intro x hx
    obtain ⟨q, hq, rfl⟩ := recencyCol_member hok hx
    rw [recencyCol_getD hi]
    exact_mod_cast hmax q hq
  rw [hnine]
  rfl

theorem mScore_mono {rs : List CleanRecord} {rows : List CustomerScore}
    (hok : rfmEngine rs = .ok rows) {row row' : CustomerScore}
    (h1 : row ∈ rows) (h2 : row' ∈ rows)
    (h : row.monetary ≤ row'.monetary) : row.mScore ≤ row'.mScore := by
  obtain ⟨i, hi, rfl⟩ := (mem_rows_iff hok).1 h1
  obtain ⟨j, hj, rfl⟩ := (mem_rows_iff hok).1 h2
  show (mScoresOf rs).getD i 0 ≤ (mScoresOf rs).getD j 0
  rw [mScoresOf_getD hi, mScoresOf_getD hj]
  have hcast : (monetaryCol rs).getD i 0 ≤ (monetaryCol rs).getD j 0 := by
    rw [monetaryCol_getD hi, monetaryCol_getD hj]
    exact h
  have hmono := binIndex_mono (monetaryCol rs) hcast
  have hb1 := binIndex_le_nine (monetaryCol rs) ((monetaryCol rs).getD i 0)
  have hb2 := binIndex_le_nine (monetaryCol rs) ((monetaryCol rs).getD j 0)
  rw [fmLabels_getD hb1, fmLabels_getD hb2]
  omega

theorem mScore_min_one {rs : List CleanRecord} {rows : List CustomerScore}
    (hok : rfmEngine rs = .ok rows) {row : CustomerScore} (h1 : row ∈ rows)
    (hmin : ∀ q ∈ rows, row.monetary ≤ q.monetary) : row.mScore = 1 := by
  obtain ⟨i, hi, rfl⟩ := (mem_rows_iff hok).1 h1
  show (mScoresOf rs).getD i 0 = 1
  rw [mScoresOf_getD hi]
  have hzero : binIndex (monetaryCol rs) ((monetaryCol rs).getD i 0) = 0 := by
    apply binIndex_min_eq_zero (getD_mem_q (by rw [monetaryCol_length]; exact hi))
    intro x hx
    obtain ⟨q, hq, rfl⟩ := monetaryCol_member hok hx
    rw [monetaryCol_getD hi]
    exact hmin q hq
  rw [hzero]
  rfl

theorem mScore_max_ten {rs : List CleanRecord} {rows : List CustomerScore}
    (hok : rfmEngine rs = .ok rows) {row : CustomerScore} (h1 : row ∈ rows)
    (hmax : ∀ q ∈ rows, q.monetary ≤ row.monetary) : row.mScore = 10 := by
  obtain ⟨i, hi, rfl⟩ := (mem_rows_iff hok).1 h1
  show (mScoresOf rs).getD i 0 = 10
  rw [mScoresOf_getD hi]
  have hnine : binIndex (monetaryCol rs) ((monetaryCol rs).getD i 0) = 9 := by
    apply binIndex_max_eq_nine (getD_mem_q (by rw [monetaryCol_length]; exact hi))
      ?_ (rfmEngine_ok_anatomy hok).2.2.2.1
    intro x hx
    obtain ⟨q, hq, rfl⟩ := monetaryCol_member hok hx
    rw [monetaryCol_getD hi]
    exact hmax q hq
  rw [hnine]
  rfl

theorem fScore_mono {rs : List CleanRecord} {rows : List CustomerScore}
    (hok : rfmEngine rs = .ok rows) {row row' : CustomerScore}
    (h1 : row ∈ rows) (h2 : row' ∈ rows)
    (h : row.frequency < row'.frequency) : row.fScore ≤ row'.fScore := by
  obtain ⟨i, hi, rfl⟩ := (mem_rows_iff hok).1 h1
  obtain ⟨j, hj, rfl⟩ := (mem_rows_iff hok).1 h2
  show (fScoresOf rs).getD i 0 ≤ (fScoresOf rs).getD j 0
  rw [fScoresOf_getD hi, fScoresOf_getD hj]
  have hflen : (frequencyCol rs).length = (customersOf rs).length :=
    frequencyCol_length rs
  have hranklt : rankAt (frequencyCol rs) i < rankAt (frequencyCol rs) j := by
    apply rankAt_lt_of_val_lt (by omega) (by omega)
    rw [frequencyCol_getD hi, frequencyCol_getD hj]
    exact_mod_cast h
  have hcast : (rankFirst (frequencyCol rs)).getD i 0
      ≤ (rankFirst (frequencyCol rs)).getD j 0 := by
    rw [rankFirst_getD (by omega), rankFirst_getD (by omega)]
    exact_mod_cast le_of_lt hranklt
  have hmono := binIndex_mono (rankFirst (frequencyCol rs)) hcast
  have hb1 := binIndex_le_nine (rankFirst (frequencyCol rs))
    ((rankFirst (frequencyCol rs)).getD i 0)
  have hb2 := binIndex_le_nine (rankFirst (frequencyCol rs))
    ((rankFirst (frequencyCol rs)).getD j 0)
  rw [fmLabels_getD hb1, fmLabels_getD hb2]
  omega

theorem fScore_strict_max_ten {rs : List CleanRecord}
    {rows : List CustomerScore} (hok : rfmEngine rs = .ok rows)
    {row : CustomerScore} (h1 : row ∈ rows)
    (hmax : ∀ q ∈ rows, q.customerID ≠ row.customerID →
      q.frequency < row.frequency) : row.fScore = 10 := by
  obtain ⟨i, hi, rfl⟩ := (mem_rows_iff hok).1 h1
  show (fScoresOf rs).getD i 0 = 10
  rw [fScoresOf_getD hi]
  have hflen : (frequencyCol rs).length = (customersOf rs).length :=
    frequencyCol_length rs
  have hstrict : ∀ j, j < (frequencyCol rs).length → j ≠ i →
      (frequencyCol rs).getD j 0 < (frequencyCol rs).getD i 0 := by
    intro j hj hji
    have hjc : j < (customersOf rs).length := by omega
    rw [frequencyCol_getD hjc, frequencyCol_getD hi]
    have hqmem : scoreRow rs j ∈ rows := (mem_rows_iff hok).2 ⟨j, hjc, rfl⟩
    have hne : (scoreRow rs j).customerID ≠ (scoreRow rs i).customerID := by
      intro heq
      exact hji (customersOf_getD_inj hjc hi heq)
    exact_mod_cast hmax (scoreRow rs j) hqmem hne
  have hrank : rankAt (frequencyCol rs) i = (frequencyCol rs).length :=
    rankAt_of_strict_max (by omega) hstrict
  have hnine : binIndex (rankFirst (frequencyCol rs))
      ((rankFirst (frequencyCol rs)).getD i 0) = 9 := by
    apply binIndex_max_eq_nine
      (rankFirst_getD_mem (by omega)) ?_ (rfmEngine_ok_anatomy hok).2.2.1
    intro x hx
    rw [rankFirst_getD (by omega), hrank]
    exact rankFirst_le_length hx
  rw [hnine]
  rfl

theorem fScore_strict_min_one {rs : List CleanRecord}
    {rows : List CustomerScore} (hok : rfmEngine rs = .ok rows)
    {row : CustomerScore} (h1 : row ∈ rows)
    (hmin : ∀ q ∈ rows, q.customerID ≠ row.customerID →
      row.frequency < q.frequency) : row.fScore = 1 := by
  obtain ⟨i, hi, rfl⟩ := (mem_rows_iff hok).1 h1
  show (fScoresOf rs).getD i 0 = 1
  rw [fScoresOf_getD hi]
  have hflen : (frequencyCol rs).length = (customersOf rs).length :=
    frequencyCol_length rs
  have hstrict : ∀ j, j < (frequencyCol rs).length → j ≠ i →
      (frequencyCol rs).getD i 0 < (frequencyCol rs).getD j 0 := by
    intro j hj hji
    have hjc : j < (customersOf rs).length := by omega
    rw [frequencyCol_getD hjc, frequencyCol_getD hi]
    have hqmem : scoreRow rs j ∈ rows := (mem_rows_iff hok).2 ⟨j, hjc, rfl⟩
    have hne : (scoreRow rs j).customerID ≠ (scoreRow rs i).customerID := by
      intro heq
      exact hji (customersOf_getD_inj hjc hi heq)
    exact_mod_cast hmin (scoreRow rs j) hqmem hne
  have hrank : rankAt (frequencyCol rs) i = 1 :=
    rankAt_of_strict_min (by omega) hstrict
  have hzero : binIndex (rankFirst (frequencyCol rs))
      ((rankFirst (frequencyCol rs)).getD i 0) = 0 := by
    apply binIndex_min_eq_zero (rankFirst_getD_mem (by omega))
    intro x hx
    rw [rankFirst_getD (by omega), hrank]
    exact one_le_rankFirst hx
  rw [hzero]
  rfl


/-! ## The uniquely best customer -/

theorem mem_getD_of_mem_nat {l : List ℕ} {y : ℕ} (h : y ∈ l) :
    ∃ j, j < l.length ∧ l.getD j 0 = y := by
  obtain ⟨j, hj, hy⟩ := List.mem_iff_getElem.1 h
  exact ⟨j, hj, by rw [List.getD_eq_getElem _ _ hj]; exact hy⟩

theorem recency_anti {rs : List CleanRecord} {c c' : ℕ}
    (h : maxDate (recordsOf rs c') ≤ maxDate (recordsOf rs c)) :
    recency rs c ≤ recency rs c' := by
  unfold recency daysBetween
  rw [Int.fdiv_eq_ediv _ (by norm_num [secondsPerDay]),
    Int.fdiv_eq_ediv _ (by norm_num [secondsPerDay])]
  apply Int.ediv_le_ediv (by norm_num [secondsPerDay])
  omega

theorem maxDate_eq_of_strict_max {rs : List CleanRecord} {c : ℕ}
    (hc : c ∈ customersOf rs)
    (hR : ∀ c' ∈ customersOf rs, c' ≠ c →
      maxDate (recordsOf rs c') < maxDate (recordsOf rs c)) :
    maxDate (recordsOf rs c) = maxDate rs := by
  refine le_antisymm (maxDate_recordsOf_le (recordsOf_ne_nil hc)) ?_
  have hne : rs ≠ [] := by
    obtain ⟨r, hr, -⟩ := List.mem_map.1 (mem_customersOf.1 hc)
    exact List.ne_nil_of_mem hr
  obtain ⟨rstar, hrstar, hdate⟩ := List.mem_map.1 (maxDate_mem hne)
  have hcstar : rstar.customerID ∈ customersOf rs :=
    mem_customersOf.2 (List.mem_map.2 ⟨rstar, hrstar, rfl⟩)
  by_cases heq : rstar.customerID = c
  · have hmem : rstar ∈ recordsOf rs c := mem_recordsOf.2 ⟨hrstar, heq⟩
    calc maxDate rs = rstar.invoiceDate := hdate.symm
      _ ≤ maxDate (recordsOf rs c) := maxDate_ge rstar hmem
  · exfalso
    have h1 := hR rstar.customerID hcstar heq
    have h2 : rstar.invoiceDate ≤ maxDate (recordsOf rs rstar.customerID) :=
      maxDate_ge rstar (mem_recordsOf.2 ⟨hrstar, rfl⟩)
    have h3 : maxDate (recordsOf rs c) ≤ maxDate rs :=
      maxDate_recordsOf_le (recordsOf_ne_nil hc)
    omega


/-! ## Balanced deciles on tie-free columns -/

theorem sortQ_strict {xs : List ℚ} (hnd : xs.Nodup) :
    (sortQ xs).Sorted (· < ·) :=
  List.Sorted.lt_of_le (sortQ_sorted xs) ((sortQ_perm xs).nodup_iff.2 hnd)

theorem sortQ_getD_lt {xs : List ℚ} (hnd : xs.Nodup) {i j : ℕ} (hij : i < j)
    (hj : j < (sortQ xs).length) :
    (sortQ xs).getD i 0 < (sortQ xs).getD j 0 := by
  rw [List.getD_eq_getElem _ _ (lt_trans hij hj), List.getD_eq_getElem _ _ hj]
  exact List.Sorted.rel_get_of_lt (sortQ_strict hnd)
    (a := ⟨i, lt_trans hij hj⟩) (b := ⟨j, hj⟩) hij

/-- On a tie-free column, the interior decile edge `e_j` lies strictly below
the `i`-th sorted value exactly when the edge's fractional index
`(n-1)*j/10` falls strictly below `i`. -/
theorem edge_lt_iff {xs : List ℚ} (hnd : xs.Nodup) {j i : ℕ}
    (hj1 : 1 ≤ j) (hj9 : j ≤ 9) (hi : i < (sortQ xs).length) :
    (quantileAt (sortQ xs) j < (sortQ xs).getD i 0
      ↔ (xs.length - 1) * j / 10 < i) := by
  have hn : 1 ≤ (sortQ xs).length := by omega
  have hnx : (sortQ xs).length = xs.length := sortQ_length xs
  rw [quantileAt_def]
  set s := sortQ xs with hs
  set b := (s.length - 1) * j / 10 with hbdef
  have hble : b ≤ s.length - 1 := quantile_index_le (by omega)
  have hblt : b < s.length := by omega
  obtain ⟨hf0, hf1⟩ := quantile_frac_bounds hn j
  have hxb : (xs.length - 1) * j / 10 = b := by rw [hbdef, hnx]
  rw [hxb]
  constructor
  · intro hlt
    by_contra hcon
    push_neg at hcon
    have hile : i ≤ b := hcon
    have h1 : s.getD i 0 ≤ s.getD b 0 := sortQ_getD_le hile hblt
    have h2 : s.getD b 0 ≤ s.getD b 0
        + (((s.length : ℚ) - 1) * j / 10 - (b : ℚ))
          * (s.getD (b + 1) (s.getD b 0) - s.getD b 0) := by
      have hfrac : (0 : ℚ) ≤ ((s.length : ℚ) - 1) * j / 10 - (b : ℚ) := by
        rw [hbdef]
        linarith
      by_cases hb1 : b + 1 < s.length
      · have hup : s.getD b 0 ≤ s.getD (b + 1) (s.getD b 0) := by
          rw [List.getD_eq_getElem _ _ hb1, ← List.getD_eq_getElem s 0 hb1]
          exact sortQ_getD_le (Nat.le_succ b) hb1
        nlinarith
      · rw [List.getD_eq_default _ _ (Nat.le_of_not_lt hb1)]
        simp
    linarith
  · intro hbi
    have hfrac0 : (0 : ℚ) ≤ ((s.length : ℚ) - 1) * j / 10 - (b : ℚ) := by
      rw [hbdef]
      linarith
    rcases eq_or_lt_of_le hfrac0 with hfz | hfpos
    · have : quantileAt s j = s.getD b 0 := by
        rw [quantileAt_def, ← hbdef, ← hfz, zero_mul, add_zero]
      rw [quantileAt_def, ← hbdef] at this
      rw [← hfz, zero_mul, add_zero]
      exact sortQ_getD_lt hnd hbi hi
    · have hn2 : 2 ≤ s.length := by
        by_contra hcon
        have hone : s.length = 1 := by omega
        have : b = 0 := by
          rw [hbdef, hone]
          simp
        rw [this, hone] at hfpos
        norm_num at hfpos
      have hb2 : b + 1 < s.length := by
        by_contra hcon
        have hbeq : b = s.length - 1 := by omega
        have hup : ((s.length : ℚ) - 1) * j / 10
            ≤ ((s.length : ℚ) - 1) * 9 / 10 := by
          apply div_le_div_of_nonneg_right ?_ (by norm_num)
          apply mul_le_mul_of_nonneg_left ?_ ?_
          · exact_mod_cast hj9
          · have : (2 : ℚ) ≤ (s.length : ℚ) := by exact_mod_cast hn2
            linarith
        have hlt9 : ((s.length : ℚ) - 1) * 9 / 10 < (s.length : ℚ) - 1 := by
          have : (2 : ℚ) ≤ (s.length : ℚ) := by exact_mod_cast hn2
          nlinarith
        have hcast : ((s.length - 1 : ℕ) : ℚ) = (s.length : ℚ) - 1 := by
          rw [Nat.cast_sub hn]
          norm_num
        rw [hbdef] at hfpos
        have : (b : ℚ) < (s.length : ℚ) - 1 := by
          rw [hbdef]
          linarith
        rw [← hcast] at this
        have : b < s.length - 1 := by exact_mod_cast this
        omega
      have hlo : s.getD b 0 < s.getD (b + 1) (s.getD b 0) := by
        rw [List.getD_eq_getElem _ _ hb2, ← List.getD_eq_getElem s 0 hb2]
        exact sortQ_getD_lt hnd (Nat.lt_succ_self b) hb2
      have hfr1 : ((s.length : ℚ) - 1) * j / 10 - (b : ℚ) < 1 := by
        rw [hbdef]
        linarith
      have hkey : s.getD b 0
          + (((s.length : ℚ) - 1) * j / 10 - (b : ℚ))
            * (s.getD (b + 1) (s.getD b 0) - s.getD b 0)
          < s.getD (b + 1) (s.getD b 0) := by
        nlinarith
      have hbi2 : b + 1 ≤ i := hbi
      have hle : s.getD (b + 1) (s.getD b 0) ≤ s.getD i 0 := by
        rw [List.getD_eq_getElem _ _ hb2, ← List.getD_eq_getElem s 0 hb2]
        exact sortQ_getD_le hbi2 hi
      linarith

/-- On a tie-free column, the bin of the `i`-th sorted value is the number
of interior fractional indices below `i`. -/
theorem binIndex_sorted_getD {xs : List ℚ} (hnd : xs.Nodup) {i : ℕ}
    (hi : i < (sortQ xs).length) :
    binIndex xs ((sortQ xs).getD i 0)
      = (List.range 9).countP
          (fun t => decide ((xs.length - 1) * (t + 1) / 10 < i)) := by
  unfold binIndex
  rw [List.countP_map]
  apply List.countP_congr
  intro t ht
  simp only [List.mem_range] at ht
  simp only [Function.comp_apply, decide_eq_decide, decide_eq_true_eq]
  exact @edge_lt_iff xs hnd (t + 1) i (by omega) (by omega) hi

/-- A decidable monotone (downward-closed) predicate on `range m` is an
initial segment whose length is its count. -/
theorem countP_range_monotone_iff (m : ℕ) (P : ℕ → Bool)
    (hmono : ∀ a b, a ≤ b → b < m → P b = true → P a = true) :
    ∀ t, t < m → (P t = true ↔ t < (List.range m).countP P) := by
  induction m with
  | zero => intro t ht; omega
  | succ m ih =>
    have hmono2 : ∀ a b, a ≤ b → b < m → P b = true → P a = true :=
      fun a b hab hb => hmono a b hab (by omega)
    intro t ht
    rw [List.range_succ, List.countP_append, List.countP_singleton]
    by_cases hPm : P m = true
    · have hall : ∀ u, u < m → P u = true :=
        fun u hu => hmono u m (by omega) (by omega) hPm
      have hcnt : (List.range m).countP P = m := by
        have := List.countP_eq_length.2
          (fun a ha => hall a (List.mem_range.1 ha))
        rw [this, List.length_range]
      rw [hcnt, if_pos hPm]
      constructor
      · intro _; omega
      · intro _
        rcases Nat.lt_or_ge t m with h | h
        · exact hall t h
        · have : t = m := by omega
          rw [this]; exact hPm
    · rw [if_neg hPm]
      have hle : (List.range m).countP P ≤ m := by
        have h0 : (List.range m).countP P ≤ (List.range m).length :=
          List.countP_le_length P
        rw [List.length_range] at h0
        exact h0
      rcases Nat.lt_or_ge t m with h | h
    -- t < m: reduce to the induction hypothesis
      · rw [ih hmono2 t h]
        omega
      · have hteq : t = m := by omega
        subst hteq
        constructor
        · intro h2; exact absurd h2 (by simp [hPm])
        · intro h2; omega


/-- Pointwise-equivalent decidable predicates have equal counts. -/
theorem countP_ext {α : Type} (l : List α) (p q : α → Prop) [DecidablePred p]
    [DecidablePred q] (h : ∀ a ∈ l, p a ↔ q a) :
    l.countP (fun a => decide (p a)) = l.countP (fun a => decide (q a)) := by
  apply List.countP_congr
  intro a ha
  by_cases hp : p a
  · rw [decide_eq_true hp, decide_eq_true ((h a ha).1 hp)]
  · rw [decide_eq_false hp, decide_eq_false (fun hq => hp ((h a ha).2 hq))]

/-- The fibers of the bin-of-sorted-position function are the integer
intervals cut by the fractional indices. -/
theorem g_fiber {n : ℕ} {i k : ℕ} (hi : i < n) (hk : k ≤ 9) :
    ((List.range 9).countP (fun t => decide ((n - 1) * (t + 1) / 10 < i)) = k
      ↔ (k = 0 ∨ (n - 1) * k / 10 < i) ∧ (k = 9 ∨ i ≤ (n - 1) * (k + 1) / 10)) := by
  have hmono : ∀ a b, a ≤ b → b < 9 →
      decide ((n - 1) * (b + 1) / 10 < i) = true →
      decide ((n - 1) * (a + 1) / 10 < i) = true := by
    intro a b hab _ hP
    simp only [decide_eq_true_eq] at hP ⊢
    have : (n - 1) * (a + 1) / 10 ≤ (n - 1) * (b + 1) / 10 :=
      Nat.div_le_div_right (Nat.mul_le_mul_left _ (by omega))
    omega
  have hchar := countP_range_monotone_iff 9
    (fun t => decide ((n - 1) * (t + 1) / 10 < i)) hmono
  set K := (List.range 9).countP
    (fun t => decide ((n - 1) * (t + 1) / 10 < i)) with hK
  have hKle : K ≤ 9 := by
    have h0 : (List.range 9).countP
        (fun t => decide ((n - 1) * (t + 1) / 10 < i))
        ≤ (List.range 9).length := List.countP_le_length _
    rw [List.length_range] at h0
    exact h0
  constructor
  · intro hKk
    subst hKk
    constructor
    · rcases Nat.eq_zero_or_pos K with h0 | hpos
      · exact Or.inl h0
      · right
        have := (hchar (K - 1) (by omega)).2 (by omega)
        simp only [decide_eq_true_eq] at this
        have heq : K - 1 + 1 = K := by omega
        rw [heq] at this
        exact this
    · rcases Nat.lt_or_ge K 9 with h9 | h9
      · right
        have hnot : ¬ (decide ((n - 1) * (K + 1) / 10 < i) = true) := by
          intro hP
          have := (hchar K h9).1 hP
          omega
        simp only [decide_eq_true_eq] at hnot
        omega
      · exact Or.inl (by omega)
  · rintro ⟨h1, h2⟩
    have hge : k ≤ K := by
      rcases Nat.eq_zero_or_pos k with h0 | hpos
      · omega
      · have hBk : (n - 1) * k / 10 < i := by
          rcases h1 with h1 | h1
          · omega
          · exact h1
        have hP : decide ((n - 1) * (k - 1 + 1) / 10 < i) = true := by
          simp only [decide_eq_true_eq]
          rw [show k - 1 + 1 = k by omega]
          exact hBk
        have := (hchar (k - 1) (by omega)).1 hP
        omega
    have hle : K ≤ k := by
      rcases h2 with rfl | h2
      · exact hKle
      · by_contra hcon
        push_neg at hcon
        have hk9 : k < 9 := by omega
        have := (hchar k hk9).2 (by omega)
        simp only [decide_eq_true_eq] at this
        omega
    omega

/-- Counting an interval `(lo, hi]` inside `range n`. -/
theorem countP_range_interval (lo hi : ℕ) :
    ∀ n, (List.range n).countP (fun i => decide (lo < i ∧ i ≤ hi))
      = min (hi + 1) n - min (lo + 1) n := by
  intro n
  induction n with
  | zero => simp
  | succ n ih =>
    rw [List.range_succ, List.countP_append, List.countP_singleton, ih]
    by_cases hcase : lo < n ∧ n ≤ hi
    · rw [if_pos (by simp [hcase.1, hcase.2])]
      omega
    · rw [if_neg (by simpa using fun h1 h2 => hcase ⟨h1, h2⟩)]
      rcases Nat.lt_or_ge n (lo + 1) with h | h
      · omega
      · have : ¬ n ≤ hi := by
          intro h2
          exact hcase ⟨by omega, h2⟩
        omega

/-- Counting an initial segment `[0, hi]` inside `range n`. -/
theorem countP_range_le_bound (hi : ℕ) :
    ∀ n, (List.range n).countP (fun i => decide (i ≤ hi)) = min (hi + 1) n := by
  intro n
  induction n with
  | zero => simp
  | succ n ih =>
    rw [List.range_succ, List.countP_append, List.countP_singleton, ih]
    by_cases hcase : n ≤ hi
    · rw [if_pos (by simp [hcase])]
      omega
    · rw [if_neg (by simpa using hcase)]
      omega

/-- The exact population of each decile bin of a tie-free column. -/
theorem qcut_balanced {xs : List ℚ} (hnd : xs.Nodup) (hne : xs ≠ [])
    {k : ℕ} (hk : k ≤ 9) :
    xs.countP (fun v => decide (binIndex xs v = k))
      = if k = 0 then (xs.length - 1) * 1 / 10 + 1
        else (xs.length - 1) * (k + 1) / 10 - (xs.length - 1) * k / 10 := by
  have hn : 1 ≤ xs.length := List.length_pos.2 hne
  have hslen : (sortQ xs).length = xs.length := sortQ_length xs
  have hperm := (sortQ_perm xs).countP_eq
    (fun v => decide (binIndex xs v = k))
  rw [← hperm, countP_index (sortQ xs) _, hslen]
  have hcongr : (List.range xs.length).countP
      (fun i => decide (binIndex xs ((sortQ xs).getD i 0) = k))
      = (List.range xs.length).countP
          (fun i => decide ((k = 0 ∨ (xs.length - 1) * k / 10 < i)
            ∧ (k = 9 ∨ i ≤ (xs.length - 1) * (k + 1) / 10))) := by
    apply countP_ext
    intro i hi
    simp only [List.mem_range] at hi
    rw [binIndex_sorted_getD hnd (by omega)]
    exact g_fiber hi hk
  rw [hcongr]
  have hB10 : (xs.length - 1) * 10 / 10 = xs.length - 1 :=
    Nat.mul_div_cancel _ (by norm_num)
  by_cases hk0 : k = 0
  · subst hk0
    rw [if_pos rfl]
    have hc2 : (List.range xs.length).countP
        (fun i => decide ((0 = 0 ∨ (xs.length - 1) * 0 / 10 < i)
          ∧ (0 = 9 ∨ i ≤ (xs.length - 1) * (0 + 1) / 10)))
        = (List.range xs.length).countP
            (fun i => decide (i ≤ (xs.length - 1) * 1 / 10)) := by
      apply countP_ext
      intro i _
      constructor
      · rintro ⟨-, h | h⟩
        · omega
        · simpa using h
      · intro h
        exact ⟨Or.inl rfl, Or.inr (by simpa using h)⟩
    rw [hc2, countP_range_le_bound]
    have hble : (xs.length - 1) * 1 / 10 ≤ xs.length - 1 :=
      quantile_index_le (by omega)
    omega
  · rw [if_neg hk0]
    have hc2 : (List.range xs.length).countP
        (fun i => decide ((k = 0 ∨ (xs.length - 1) * k / 10 < i)
          ∧ (k = 9 ∨ i ≤ (xs.length - 1) * (k + 1) / 10)))
        = (List.range xs.length).countP
            (fun i => decide ((xs.length - 1) * k / 10 < i
              ∧ i ≤ (xs.length - 1) * (k + 1) / 10)) := by
      apply countP_ext
      intro i hi
      simp only [List.mem_range] at hi
      constructor
      · rintro ⟨h1 | h1, h2 | h2⟩
        · exact absurd h1 hk0
        · exact absurd h1 hk0
        · refine ⟨h1, ?_⟩
          subst h2
          rw [hB10]
          omega
        · exact ⟨h1, h2⟩
      · rintro ⟨ha, hb⟩
        exact ⟨Or.inr ha, Or.inr hb⟩
    rw [hc2, countP_range_interval]
    have h1 : (xs.length - 1) * (k + 1) / 10 ≤ xs.length - 1 :=
      quantile_index_le (by omega)
    have h2 : (xs.length - 1) * k / 10 ≤ (xs.length - 1) * (k + 1) / 10 :=
      Nat.div_le_div_right (Nat.mul_le_mul_left _ (by omega))
    omega


theorem nat_div_add_bounds (a b : ℕ) :
    a / 10 + b / 10 ≤ (a + b) / 10 ∧ (a + b) / 10 ≤ a / 10 + b / 10 + 1 := by
  omega

/-- Any two decile bins of a tie-free column differ by at most one. -/
theorem balanced_counts_of_col {col : List ℚ} (hnd : col.Nodup)
    (hne : col ≠ []) {k1 k2 : ℕ} (h1 : k1 ≤ 9) (h2 : k2 ≤ 9) :
    col.countP (fun v => decide (binIndex col v = k1))
      ≤ col.countP (fun v => decide (binIndex col v = k2)) + 1 := by
  have hw : ∀ k, k ≤ 9 →
      (col.length - 1) / 10 ≤ col.countP (fun v => decide (binIndex col v = k))
        ∧ col.countP (fun v => decide (binIndex col v = k))
          ≤ (col.length - 1) / 10 + 1 := by
    intro k hk
    rw [qcut_balanced hnd hne hk]
    by_cases hk0 : k = 0
    · subst hk0
      rw [if_pos rfl, Nat.mul_one]
      omega
    · rw [if_neg hk0,
        show (col.length - 1) * (k + 1) = (col.length - 1) * k + (col.length - 1)
          from by ring]
      have := nat_div_add_bounds ((col.length - 1) * k) (col.length - 1)
      omega
  have hb1 := hw k1 h1
  have hb2 := hw k2 h2
  omega

/-- When the population is an exact multiple of 10, every decile bin of a
tie-free column holds exactly a tenth of it. -/
theorem exact_counts_of_col {col : List ℚ} (hnd : col.Nodup) (hne : col ≠ [])
    (hdvd : 10 ∣ col.length) {k : ℕ} (hk : k ≤ 9) :
    col.countP (fun v => decide (binIndex col v = k)) = col.length / 10 ∧
      1 ≤ col.countP (fun v => decide (binIndex col v = k)) := by
  have hn : 1 ≤ col.length := List.length_pos.2 hne
  obtain ⟨m, hm⟩ := hdvd
  rw [qcut_balanced hnd hne hk, hm]
  constructor
  · interval_cases k <;> norm_num <;> omega
  · interval_cases k <;> norm_num <;> omega


theorem rows_rScore_count {rs : List CleanRecord} {rows : List CustomerScore}
    (hok : rfmEngine rs = .ok rows) (k : ℕ) :
    rows.countP (fun q => decide (q.rScore = k))
      = (recencyCol rs).countP
          (fun v => decide (rLabels.getD (binIndex (recencyCol rs) v) 0 = k)) := by
  rw [(rfmEngine_ok_anatomy hok).2.2.2.2, List.countP_map,
    countP_index (recencyCol rs)
      (fun v => decide (rLabels.getD (binIndex (recencyCol rs) v) 0 = k)),
    recencyCol_length rs]
  simp only [Function.comp_def]
  apply countP_ext
  intro i hi
  rw [show (scoreRow rs i).rScore = (rScoresOf rs).getD i 0 from rfl,
    rScoresOf_getD (List.mem_range.1 hi)]

theorem rows_fScore_count {rs : List CleanRecord} {rows : List CustomerScore}
    (hok : rfmEngine rs = .ok rows) (k : ℕ) :
    rows.countP (fun q => decide (q.fScore = k))
      = (rankFirst (frequencyCol rs)).countP
          (fun v => decide (fmLabels.getD
            (binIndex (rankFirst (frequencyCol rs)) v) 0 = k)) := by
  rw [(rfmEngine_ok_anatomy hok).2.2.2.2, List.countP_map,
    countP_index (rankFirst (frequencyCol rs))
      (fun v => decide (fmLabels.getD
        (binIndex (rankFirst (frequencyCol rs)) v) 0 = k)),
    rankFirst_length, frequencyCol_length rs]
  simp only [Function.comp_def]
  apply countP_ext
  intro i hi
  rw [show (scoreRow rs i).fScore = (fScoresOf rs).getD i 0 from rfl,
    fScoresOf_getD (List.mem_range.1 hi)]

theorem rows_mScore_count {rs : List CleanRecord} {rows : List CustomerScore}
    (hok : rfmEngine rs = .ok rows) (k : ℕ) :
    rows.countP (fun q => decide (q.mScore = k))
      = (monetaryCol rs).countP
          (fun v => decide (fmLabels.getD (binIndex (monetaryCol rs) v) 0 = k)) := by
  rw [(rfmEngine_ok_anatomy hok).2.2.2.2, List.countP_map,
    countP_index (monetaryCol rs)
      (fun v => decide (fmLabels.getD (binIndex (monetaryCol rs) v) 0 = k)),
    monetaryCol_length rs]
  simp only [Function.comp_def]
  apply countP_ext
  intro i hi
  rw [show (scoreRow rs i).mScore = (mScoresOf rs).getD i 0 from rfl,
    mScoresOf_getD (List.mem_range.1 hi)]

theorem rlabel_count_eq_bin (col : List ℚ) {k : ℕ} (hk1 : 1 ≤ k) (hk2 : k ≤ 10) :
    col.countP (fun v => decide (rLabels.getD (binIndex col v) 0 = k))
      = col.countP (fun v => decide (binIndex col v = 10 - k)) := by
  apply countP_ext
  intro v _
  have hb := binIndex_le_nine col v
  rw [rLabels_getD hb]
  omega

theorem fmlabel_count_eq_bin (col : List ℚ) {k : ℕ} (hk1 : 1 ≤ k) (hk2 : k ≤ 10) :
    col.countP (fun v => decide (fmLabels.getD (binIndex col v) 0 = k))
      = col.countP (fun v => decide (binIndex col v = k - 1)) := by
  apply countP_ext
  intro v _
  have hb := binIndex_le_nine col v
  rw [fmLabels_getD hb]
  omega

/-! ## Claims -/

/-- Claim C4: every record in the Cleaner's output has positive quantity and
unit price, a present customer identifier and description (witnessed by the
raw record it came from), a line total equal to quantity times unit price,
and the output contains no exact duplicate records. -/
theorem cleaner_output_valid (raw : List RawRecord) :
    (∀ r ∈ cleaner raw,
        0 < r.quantity ∧ 0 < r.unitPrice ∧
          r.totalPrice = r.quantity * r.unitPrice ∧
          ∃ s ∈ raw, s.customerID = some r.customerID ∧
            s.description = some r.description) ∧
      (cleaner raw).Nodup := by
  refine ⟨?_, cleaner_nodup raw⟩
  intro r hr
  obtain ⟨s, hsmem, hs⟩ := mem_cleaner.1 hr
  obtain ⟨hchar, hq, hp, ht⟩ := toClean_eq_some hs
  refine ⟨hq, hp, ht, s, dropDuplicates_subset raw s hsmem, ?_, ?_⟩
  · rw [hchar]
  · rw [hchar]

/-- Claim C8: the sum of the per-customer monetary values equals the sum of
the line totals over all cleaned records (conservation of revenue under the
group-by-customer aggregation). -/
theorem monetary_conservation (rs : List CleanRecord) :
    ((customersOf rs).map (fun c => monetary rs c)).sum
      = (rs.map (fun r => r.totalPrice)).sum :=
  sum_monetary_eq rs (customersOf rs) (customersOf_nodup rs)
    (fun r hr => mem_customersOf.2 (List.mem_map.2 ⟨r, hr, rfl⟩))

/-- Claim C9: the engine is deterministic — two runs on the same cleaned
input produce the same result (the embedded pipeline is a pure function of
its input; there is no hidden state). -/
theorem engine_deterministic (rs : List CleanRecord)
    (o1 o2 : Except String (List CustomerScore))
    (h1 : rfmEngine rs = o1) (h2 : rfmEngine rs = o2) : o1 = o2 :=
  h1 ▸ h2

theorem engine_deterministic_witness :
    rfmEngine data9 = rfmEngine data9 :=
  engine_deterministic data9 (rfmEngine data9) (rfmEngine data9) rfl rfl

/-- Claim C3 (amended): the engine has no negativity check at all — its
only failure modes are the quantile-binning ones (empty column or duplicate
bin edges), so no `InvalidMetricError` is ever raised, with or without
negative monetary values; what is true is that the Cleaner's own output can
never carry a nonpositive line total. -/
theorem engine_error_only_binning :
    (∀ (rs : List CleanRecord) (e : String), rfmEngine rs = .error e →
        e = "qcut: empty input" ∨ e = "Bin edges must be unique") ∧
      ∀ (raw : List RawRecord), ∀ r ∈ cleaner raw, 0 < r.totalPrice := by
  constructor
  · intro rs e h
    rw [rfmEngine_eq_bind] at h
    cases h1 : qcut (recencyCol rs) rLabels with
    | error e1 =>
      rw [h1] at h
      have : e1 = e := by simpa [Except.bind] using h
      exact this ▸ qcut_error_cases h1
    | ok rSc =>
      rw [h1] at h
      cases h2 : qcut (rankFirst (frequencyCol rs)) fmLabels with
      | error e2 =>
        rw [h2] at h
        have : e2 = e := by simpa [Except.bind] using h
        exact this ▸ qcut_error_cases h2
      | ok fSc =>
        rw [h2] at h
        cases h3 : qcut (monetaryCol rs) fmLabels with
        | error e3 =>
          rw [h3] at h
          have : e3 = e := by simpa [Except.bind] using h
          exact this ▸ qcut_error_cases h3
        | ok mSc =>
          rw [h3] at h
          exact absurd h (by simp [Except.bind])
  · intro raw r hr
    exact cleaner_totalPrice_pos hr

/-- Claim C2 (amended): the engine does not check the customer count and
raises no `InsufficientDataError`; what it does do is fail on degenerate
quantile edges — in particular it always fails on an empty customer set and
on a single customer.  (With 9 customers and tie-free metric columns it
completes: see the counterexample.) -/
theorem engine_error_small_population :
    (∀ rs : List CleanRecord, customersOf rs = [] →
        rfmEngine rs = .error "qcut: empty input") ∧
      ∀ (rs : List CleanRecord) (c : ℕ), customersOf rs = [c] →
        rfmEngine rs = .error "Bin edges must be unique" :=
  ⟨fun _ h => rfmEngine_error_of_no_customers h,
   fun _ _ h => rfmEngine_error_of_single_customer h⟩

section ConcreteRuns

attribute [local semireducible] Rat.add Rat.mul Rat.sub Rat.inv

set_option maxRecDepth 100000

/-- Claim C2, counterexample: a dataset with exactly 9 distinct customers on
which the engine completes — refuting "fewer than 10 distinct customers
always fails with InsufficientDataError". -/
theorem nine_customers_engine_completes :
    (customersOf data9).length = 9 ∧ (rfmEngine data9).isOk = true := by
  constructor
  · decide
  · decide

theorem engine_error_small_population_witness :
    rfmEngine ([] : List CleanRecord) = .error "qcut: empty input" ∧
      rfmEngine dataSingle = .error "Bin edges must be unique" :=
  ⟨engine_error_small_population.1 [] (by decide),
   engine_error_small_population.2 dataSingle 7 (by decide)⟩

/-- Claim C3, counterexample: a table with a negative per-customer monetary
value on which the engine completes without any error. -/
theorem negative_monetary_completes :
    (∃ r ∈ dataNeg, r.totalPrice < 0) ∧ monetary dataNeg 1 < 0 ∧
      (rfmEngine dataNeg).isOk = true := by
  refine ⟨⟨mkRec "a" 1 (-5) 0, by decide, by decide⟩, by decide, by decide⟩

theorem engine_error_only_binning_witness :
    ("Bin edges must be unique" = "qcut: empty input" ∨
        "Bin edges must be unique" = "Bin edges must be unique") ∧
      0 < (mkRec "a" 1 3 0 : CleanRecord).totalPrice :=
  ⟨engine_error_only_binning.1 dataTiedR "Bin edges must be unique" (by rfl),
   engine_error_only_binning.2 rawOne (mkRec "a" 1 3 0) (by decide)⟩

theorem cleaner_output_valid_witness :
    (0 < cleanedA.quantity ∧ 0 < cleanedA.unitPrice ∧
        cleanedA.totalPrice = cleanedA.quantity * cleanedA.unitPrice ∧
        ∃ s ∈ rawSample, s.customerID = some cleanedA.customerID ∧
          s.description = some cleanedA.description) ∧
      (cleaner rawSample).Nodup :=
  ⟨(cleaner_output_valid rawSample).1 cleanedA (by decide),
   (cleaner_output_valid rawSample).2⟩

end ConcreteRuns

section ConcreteRunsB

attribute [local semireducible] Rat.add Rat.mul Rat.sub Rat.inv

set_option maxRecDepth 100000

/-- Claim C5: for every customer of a cleaned input, recency is the whole
number of days from the customer's most recent invoice timestamp to the
reference date (global maximum timestamp plus one day), frequency is the
number of distinct invoice identifiers, monetary is the sum of the
customer's line totals, and recency is nonnegative; on the worked example
(invoices 2011-01-01 and 2011-01-10, reference date 2011-01-11) the
frequency is 2 and the recency is 1 day. -/
theorem rfm_metrics_correct :
    (∀ (rs : List CleanRecord) (c : ℕ), c ∈ customersOf rs →
        recency rs c = daysBetween (maxDate (recordsOf rs c)) (latestDate rs) ∧
          frequency rs c
            = ((recordsOf rs c).map (fun r => r.invoiceNo)).dedup.length ∧
          monetary rs c = ((recordsOf rs c).map (fun r => r.totalPrice)).sum ∧
          0 ≤ recency rs c) ∧
      latestDate dataC5 = 1294704000 ∧ recency dataC5 1 = 1 ∧
        frequency dataC5 1 = 2 ∧ monetary dataC5 1 = 30 := by
  refine ⟨?_, by decide, by decide, by decide, by decide⟩
  intro rs c hc
  exact ⟨rfl, List.card_toFinset _, rfl,
    le_trans (by norm_num) (recency_ge_one hc)⟩

theorem rfm_metrics_correct_witness :
    recency dataC5 1 = daysBetween (maxDate (recordsOf dataC5 1)) (latestDate dataC5) ∧
      frequency dataC5 1
        = ((recordsOf dataC5 1).map (fun r => r.invoiceNo)).dedup.length ∧
      monetary dataC5 1 = ((recordsOf dataC5 1).map (fun r => r.totalPrice)).sum ∧
      0 ≤ recency dataC5 1 :=
  rfm_metrics_correct.1 dataC5 1 (by decide)

end ConcreteRunsB

section ConcreteRunsC

attribute [local semireducible] Rat.add Rat.mul Rat.sub Rat.inv

set_option maxRecDepth 100000

/-- Claim C10, counterexample: fewer than 10 distinct values in the recency
column does not by itself abort that column's quantile binning — `dataRec9`
has 10 customers, only 9 distinct recency values and positive monetary
values, and the engine completes. -/
theorem nine_distinct_recency_completes :
    (customersOf dataRec9).length = 10 ∧
      ((customersOf dataRec9).map (fun c => recency dataRec9 c)).dedup.length
        = 9 ∧
      (∀ r ∈ dataRec9, 0 < r.totalPrice) ∧
      (rfmEngine dataRec9).isOk = true :=
  ⟨by decide, by decide, by decide, by decide⟩

/-- Claim C10 (amended): there are cleaned inputs with at least 10 distinct
customers and all monetary values positive on which the engine still fails
— duplicate decile bin edges on a directly-binned column (here: every
customer shares one purchase day, so all recency values coincide) — while
the frequency column can never be the failing one, because it is binned on
the tie-broken rank, whose values are pairwise distinct. -/
theorem engine_fails_despite_valid_input :
    ((customersOf dataTiedR).length = 10 ∧
        (∀ r ∈ dataTiedR, 0 < r.totalPrice) ∧
        rfmEngine dataTiedR = .error "Bin edges must be unique") ∧
      ∀ rs : List CleanRecord, 2 ≤ (customersOf rs).length →
        ∃ ys, qcut (rankFirst (frequencyCol rs)) fmLabels = .ok ys :=
  ⟨⟨by decide, by decide, by rfl⟩, fun _ h2 => frequency_qcut_ok h2⟩

theorem engine_fails_despite_valid_input_witness :
    ∃ ys, qcut (rankFirst (frequencyCol data9)) fmLabels = .ok ys :=
  engine_fails_despite_valid_input.2 data9 (by decide)

end ConcreteRunsC

/-- Claim C7 (amended): on every completed run the recency deciles are
inverted and monotone (a minimal-recency row scores 10, a maximal one
scores 1, and R_Score never increases with recency), the monetary deciles
are ascending and monotone (minimum to 1, maximum to 10), and the frequency
deciles are ascending in the tie-broken rank: a strictly lower frequency
never outscores a higher one, a strictly highest-frequency customer scores
10 and a strictly lowest-frequency customer scores 1 — but a customer tied
at the extreme need not receive the extreme score (see the
counterexample). -/
theorem score_monotonicity (rs : List CleanRecord)
    (hok : (rfmEngine rs).isOk = true) (row row' : CustomerScore)
    (h1 : row ∈ engineRows rs) (h2 : row' ∈ engineRows rs) :
    (row.recency ≤ row'.recency → row'.rScore ≤ row.rScore) ∧
      ((∀ q ∈ engineRows rs, row.recency ≤ q.recency) → row.rScore = 10) ∧
      ((∀ q ∈ engineRows rs, q.recency ≤ row.recency) → row.rScore = 1) ∧
      (row.monetary ≤ row'.monetary → row.mScore ≤ row'.mScore) ∧
      ((∀ q ∈ engineRows rs, row.monetary ≤ q.monetary) → row.mScore = 1) ∧
      ((∀ q ∈ engineRows rs, q.monetary ≤ row.monetary) → row.mScore = 10) ∧
      (row.frequency < row'.frequency → row.fScore ≤ row'.fScore) ∧
      ((∀ q ∈ engineRows rs, q.customerID ≠ row.customerID →
          q.frequency < row.frequency) → row.fScore = 10) ∧
      ((∀ q ∈ engineRows rs, q.customerID ≠ row.customerID →
          row.frequency < q.frequency) → row.fScore = 1) := by
  obtain ⟨rows, hrows⟩ := isOk_iff_exists.1 hok
  rw [engineRows_of_ok hrows] at h1 h2 ⊢
  exact ⟨fun h => rScore_anti hrows h1 h2 h,
    fun h => rScore_min_ten hrows h1 h,
    fun h => rScore_max_one hrows h1 h,
    fun h => mScore_mono hrows h1 h2 h,
    fun h => mScore_min_one hrows h1 h,
    fun h => mScore_max_ten hrows h1 h,
    fun h => fScore_mono hrows h1 h2 h,
    fun h => fScore_strict_max_ten hrows h1 h,
    fun h => fScore_strict_min_one hrows h1 h⟩

section ConcreteRunsD

attribute [local semireducible] Rat.add Rat.mul Rat.sub Rat.inv

set_option maxRecDepth 100000

/-- Claim C7, counterexample: with a tie at the top frequency the engine
completes, yet one of the two highest-frequency customers receives
F_Score 9, not 10 — "highest value maps to score 10" fails under ties. -/
theorem tied_top_frequency_low_score :
    (rfmEngine dataTieF).isOk = true ∧
      ∃ row ∈ engineRows dataTieF,
        (∀ q ∈ engineRows dataTieF, q.frequency ≤ row.frequency) ∧
          row.fScore = 9 := by
  refine ⟨by decide, ?_⟩
  refine ⟨{ customerID := 9, recency := 2, frequency := 2, monetary := 19/2,
            rScore := 9, fScore := 9, mScore := 9, rfmScore := "999" },
    by decide, by decide, by decide⟩

theorem score_monotonicity_witness :
    ((rowC1.recency ≤ rowC2.recency → rowC2.rScore ≤ rowC1.rScore) ∧
      ((∀ q ∈ engineRows data10best, rowC1.recency ≤ q.recency) →
          rowC1.rScore = 10) ∧
      ((∀ q ∈ engineRows data10best, q.recency ≤ rowC1.recency) →
          rowC1.rScore = 1) ∧
      (rowC1.monetary ≤ rowC2.monetary → rowC1.mScore ≤ rowC2.mScore) ∧
      ((∀ q ∈ engineRows data10best, rowC1.monetary ≤ q.monetary) →
          rowC1.mScore = 1) ∧
      ((∀ q ∈ engineRows data10best, q.monetary ≤ rowC1.monetary) →
          rowC1.mScore = 10) ∧
      (rowC1.frequency < rowC2.frequency → rowC1.fScore ≤ rowC2.fScore) ∧
      ((∀ q ∈ engineRows data10best, q.customerID ≠ rowC1.customerID →
          q.frequency < rowC1.frequency) → rowC1.fScore = 10) ∧
      ((∀ q ∈ engineRows data10best, q.customerID ≠ rowC1.customerID →
          rowC1.frequency < q.frequency) → rowC1.fScore = 1)) ∧
      rowC1.rScore = 1 :=
  ⟨score_monotonicity data10best (by decide) rowC1 rowC2 (by decide) (by decide),
   (score_monotonicity data10best (by decide) rowC1 rowC2 (by decide)
      (by decide)).2.2.1 (by decide)⟩

end ConcreteRunsD

/-- Claim C1: a customer with the single most recent purchase, the strictly
highest count of distinct invoices and the strictly highest total spend
receives R_Score = F_Score = M_Score = 10 and lands in the best-customers
segment; and among scores 1..10 the composite code '101010' is produced
only by the triple (10, 10, 10). -/
theorem best_customer_all_tens (rs : List CleanRecord)
    (hok : (rfmEngine rs).isOk = true) (c : ℕ) (hc : c ∈ customersOf rs)
    (hR : ∀ c' ∈ customersOf rs, c' ≠ c →
        maxDate (recordsOf rs c') < maxDate (recordsOf rs c))
    (hF : ∀ c' ∈ customersOf rs, c' ≠ c → frequency rs c' < frequency rs c)
    (hM : ∀ c' ∈ customersOf rs, c' ≠ c → monetary rs c' < monetary rs c) :
    (∃ row ∈ engineRows rs, row.customerID = c ∧ row.rScore = 10 ∧
        row.fScore = 10 ∧ row.mScore = 10 ∧ row ∈ bestCustomers rs) ∧
      ∀ r ∈ fmLabels, ∀ f ∈ fmLabels, ∀ m ∈ fmLabels,
        (rfmCode r f m = "101010" ↔ r = 10 ∧ f = 10 ∧ m = 10) := by
  obtain ⟨rows, hrows⟩ := isOk_iff_exists.1 hok
  constructor
  · obtain ⟨i, hi, hci⟩ := mem_getD_of_mem_nat hc
    have hrowsmem : scoreRow rs i ∈ rows := (mem_rows_iff hrows).2 ⟨i, hi, rfl⟩
    have hrowmem : scoreRow rs i ∈ engineRows rs := by
      rw [engineRows_of_ok hrows]
      exact hrowsmem
    have hmd : maxDate (recordsOf rs c) = maxDate rs :=
      maxDate_eq_of_strict_max hc hR
    have hq : ∀ q ∈ rows, ∃ j, j < (customersOf rs).length ∧ q = scoreRow rs j :=
      fun q hqm => by
        obtain ⟨j, hj, rfl⟩ := (mem_rows_iff hrows).1 hqm
        exact ⟨j, hj, rfl⟩
    have hrs : (scoreRow rs i).rScore = 10 := by
      apply rScore_min_ten hrows hrowsmem
      intro q hqm
      obtain ⟨j, hj, rfl⟩ := hq q hqm
      show recency rs ((customersOf rs).getD i 0)
        ≤ recency rs ((customersOf rs).getD j 0)
      rw [hci]
      apply recency_anti
      rw [hmd]
      exact maxDate_recordsOf_le (recordsOf_ne_nil (customersOf_getD_mem hj))
    have hfs : (scoreRow rs i).fScore = 10 := by
      apply fScore_strict_max_ten hrows hrowsmem
      intro q hqm hqne
      obtain ⟨j, hj, rfl⟩ := hq q hqm
      show frequency rs ((customersOf rs).getD j 0)
        < frequency rs ((customersOf rs).getD i 0)
      rw [hci]
      apply hF _ (customersOf_getD_mem hj)
      intro heq
      exact hqne (show (customersOf rs).getD j 0 = (customersOf rs).getD i 0
        from heq.trans hci.symm)
    have hms : (scoreRow rs i).mScore = 10 := by
      apply mScore_max_ten hrows hrowsmem
      intro q hqm
      obtain ⟨j, hj, rfl⟩ := hq q hqm
      show monetary rs ((customersOf rs).getD j 0)
        ≤ monetary rs ((customersOf rs).getD i 0)
      rw [hci]
      by_cases heq : (customersOf rs).getD j 0 = c
      · rw [heq]
      · exact le_of_lt (hM _ (customersOf_getD_mem hj) heq)
    have hcode : (scoreRow rs i).rfmScore = "101010" := by
      show rfmCode ((rScoresOf rs).getD i 0) ((fScoresOf rs).getD i 0)
        ((mScoresOf rs).getD i 0) = "101010"
      rw [show (rScoresOf rs).getD i 0 = 10 from hrs,
        show (fScoresOf rs).getD i 0 = 10 from hfs,
        show (mScoresOf rs).getD i 0 = 10 from hms]
      rfl
    refine ⟨scoreRow rs i, hrowmem, hci, hrs, hfs, hms, ?_⟩
    apply List.mem_filter.2
    refine ⟨hrowmem, ?_⟩
    rw [hcode]
    rfl
  · decide

section ConcreteRunsE

attribute [local semireducible] Rat.add Rat.mul Rat.sub Rat.inv

set_option maxRecDepth 100000

theorem best_customer_all_tens_witness :
    (∃ row ∈ engineRows data10best, row.customerID = 10 ∧ row.rScore = 10 ∧
        row.fScore = 10 ∧ row.mScore = 10 ∧ row ∈ bestCustomers data10best) ∧
      ∀ r ∈ fmLabels, ∀ f ∈ fmLabels, ∀ m ∈ fmLabels,
        (rfmCode r f m = "101010" ↔ r = 10 ∧ f = 10 ∧ m = 10) :=
  best_customer_all_tens data10best (by decide) 10 (by decide) (by decide)
    (by decide) (by decide)

end ConcreteRunsE

/-- Claim C6 (amended): on every completed run the F_Score bins are always
balanced — any two bin populations differ by at most 1, and when the number
of customers is an exact multiple of 10 every F_Score 1..10 is hit by
exactly a tenth of the population — because frequency is binned on the
tie-broken rank; the same holds for R_Score when the recency values are
pairwise distinct and for M_Score when the monetary values are pairwise
distinct, but with ties in those directly-binned columns a completed run
can have unbalanced, non-surjective bins (see the counterexample). -/
theorem decile_balance (rs : List CleanRecord)
    (hok : (rfmEngine rs).isOk = true) :
    ((∀ k1 k2, 1 ≤ k1 → k1 ≤ 10 → 1 ≤ k2 → k2 ≤ 10 →
        (engineRows rs).countP (fun q => decide (q.fScore = k1))
          ≤ (engineRows rs).countP (fun q => decide (q.fScore = k2)) + 1) ∧
      (10 ∣ (customersOf rs).length → ∀ k, 1 ≤ k → k ≤ 10 →
        (engineRows rs).countP (fun q => decide (q.fScore = k))
          = (customersOf rs).length / 10 ∧
          1 ≤ (engineRows rs).countP (fun q => decide (q.fScore = k)))) ∧
    ((recencyCol rs).Nodup →
      (∀ k1 k2, 1 ≤ k1 → k1 ≤ 10 → 1 ≤ k2 → k2 ≤ 10 →
        (engineRows rs).countP (fun q => decide (q.rScore = k1))
          ≤ (engineRows rs).countP (fun q => decide (q.rScore = k2)) + 1) ∧
      (10 ∣ (customersOf rs).length → ∀ k, 1 ≤ k → k ≤ 10 →
        (engineRows rs).countP (fun q => decide (q.rScore = k))
          = (customersOf rs).length / 10 ∧
          1 ≤ (engineRows rs).countP (fun q => decide (q.rScore = k)))) ∧
    ((monetaryCol rs).Nodup →
      (∀ k1 k2, 1 ≤ k1 → k1 ≤ 10 → 1 ≤ k2 → k2 ≤ 10 →
        (engineRows rs).countP (fun q => decide (q.mScore = k1))
          ≤ (engineRows rs).countP (fun q => decide (q.mScore = k2)) + 1) ∧
      (10 ∣ (customersOf rs).length → ∀ k, 1 ≤ k → k ≤ 10 →
        (engineRows rs).countP (fun q => decide (q.mScore = k))
          = (customersOf rs).length / 10 ∧
          1 ≤ (engineRows rs).countP (fun q => decide (q.mScore = k)))) := by
  obtain ⟨rows, hrows⟩ := isOk_iff_exists.1 hok
  rw [engineRows_of_ok hrows]
  have hne1 := (rfmEngine_ok_anatomy hrows).1
  have hn1 : 1 ≤ (customersOf rs).length := by
    rw [← recencyCol_length rs]
    exact List.length_pos.2 hne1
  have hlenF : (rankFirst (frequencyCol rs)).length = (customersOf rs).length := by
    rw [rankFirst_length, frequencyCol_length]
  have hneF : rankFirst (frequencyCol rs) ≠ [] := by
    intro h
    have hl := congrArg List.length h
    rw [hlenF] at hl
    simp only [List.length_nil] at hl
    omega
  refine ⟨⟨?_, ?_⟩, fun hndR => ⟨?_, ?_⟩, fun hndM => ⟨?_, ?_⟩⟩
  · intro k1 k2 hk11 hk12 hk21 hk22
    rw [rows_fScore_count hrows k1, rows_fScore_count hrows k2,
      fmlabel_count_eq_bin _ hk11 hk12, fmlabel_count_eq_bin _ hk21 hk22]
    exact balanced_counts_of_col (rankFirst_nodup _) hneF
      (show k1 - 1 ≤ 9 by omega) (show k2 - 1 ≤ 9 by omega)
  · intro hdvd k hk1 hk2
    rw [rows_fScore_count hrows k, fmlabel_count_eq_bin _ hk1 hk2]
    have hres := exact_counts_of_col (rankFirst_nodup (frequencyCol rs)) hneF
      (by rw [hlenF]; exact hdvd) (show k - 1 ≤ 9 by omega)
    rw [hlenF] at hres
    exact hres
  · intro k1 k2 hk11 hk12 hk21 hk22
    rw [rows_rScore_count hrows k1, rows_rScore_count hrows k2,
      rlabel_count_eq_bin _ hk11 hk12, rlabel_count_eq_bin _ hk21 hk22]
    exact balanced_counts_of_col hndR hne1
      (show 10 - k1 ≤ 9 by omega) (show 10 - k2 ≤ 9 by omega)
  · intro hdvd k hk1 hk2
    rw [rows_rScore_count hrows k, rlabel_count_eq_bin _ hk1 hk2]
    have hres := exact_counts_of_col hndR hne1
      (by rw [recencyCol_length]; exact hdvd) (show 10 - k ≤ 9 by omega)
    rw [recencyCol_length] at hres
    exact hres
  · intro k1 k2 hk11 hk12 hk21 hk22
    have hneM : monetaryCol rs ≠ [] := by
      intro h
      have := congrArg List.length h
      rw [monetaryCol_length] at this
      simp only [List.length_nil] at this
      omega
    rw [rows_mScore_count hrows k1, rows_mScore_count hrows k2,
      fmlabel_count_eq_bin _ hk11 hk12, fmlabel_count_eq_bin _ hk21 hk22]
    exact balanced_counts_of_col hndM hneM
      (show k1 - 1 ≤ 9 by omega) (show k2 - 1 ≤ 9 by omega)
  · intro hdvd k hk1 hk2
    have hneM : monetaryCol rs ≠ [] := by
      intro h
      have := congrArg List.length h
      rw [monetaryCol_length] at this
      simp only [List.length_nil] at this
      omega
    rw [rows_mScore_count hrows k, fmlabel_count_eq_bin _ hk1 hk2]
    have hres := exact_counts_of_col hndM hneM
      (by rw [monetaryCol_length]; exact hdvd) (show k - 1 ≤ 9 by omega)
    rw [monetaryCol_length] at hres
    exact hres

section ConcreteRunsF

attribute [local semireducible] Rat.add Rat.mul Rat.sub Rat.inv

set_option maxRecDepth 100000

/-- Claim C6, counterexample: with one tie in the monetary column
(`[1,2,2,3,...,9]`, 10 customers) the engine completes, yet no customer
receives M_Score 3 while two receive M_Score 2 — the deciles are neither
surjective (the population is an exact multiple of 10) nor balanced to
within one. -/
theorem tied_monetary_unbalanced_bins :
    (rfmEngine dataTieM).isOk = true ∧
      (customersOf dataTieM).length = 10 ∧
      (engineRows dataTieM).countP (fun q => decide (q.mScore = 3)) = 0 ∧
      (engineRows dataTieM).countP (fun q => decide (q.mScore = 2)) = 2 :=
  ⟨by decide, by decide, by decide, by decide⟩

theorem decile_balance_witness :
    1 ≤ (engineRows data10best).countP (fun q => decide (q.fScore = 10)) :=
  ((decile_balance data10best (by decide)).1.2 (by decide) 10 (by decide)
    (by decide)).2

end ConcreteRunsF
